import Mathlib

/-! # terraform-parser: extraction and value-normalisation layer

A shallow embedding of `src/main.go` (the functions `formatCtyValue`,
`extractAttributes`, `extractRequiredProviders`, `extractFromFile`,
`parseTfVarsFile` and `parseTerraformDirectory`) together with theorems about them.

Modelling conventions.

* A Go string is modelled by a Lean `String`; the functions of the Go packages
  `strings` and `path/filepath` that the program calls are written out over the
  character sequence, with `/` as the only path separator (Unix).
* A Go slice is modelled by the list of its elements; a nil slice and an empty
  slice are both the empty list. Where the difference shows (the JSON form of the
  breakdown), `GoSlice` and `GoMapValue` keep it.
* A field or variable that Go calls `Type` is called `Type_`.
* A Go map with string keys is modelled by the list of its entries, in the order
  in which a `range` statement visits them. The keys of a map are pairwise
  distinct; a theorem that needs this says so in a hypothesis. Go leaves the
  order of `range` unspecified. A map that the program builds lists its keys in
  the order in which they were first written, which is the order of the map it
  was built from; the statements are quantified over every order of that map,
  hence over every order of `range`.
* The HCL library is outside the repository. A body is modelled by what
  `JustAttributes` reports and by its child blocks, from which `PartialContent`
  takes the blocks that fit the schema; an expression is modelled by what
  `Value(nil)` reports, a diagnostic by its severity and summary.
* The breakdown is passed explicitly: a Go function that mutates
  `*TerraformBreakdown` becomes a function returning the new breakdown.
-/

namespace TerraformParser

/-! ## Go maps with string keys -/

/-- Entries of a Go `map[string]β`, in `range` order. -/
abbrev GoMap (β : Type) := List (String × β)

/-- Keys of a map, in `range` order. -/
def mapKeys {β : Type} (m : GoMap β) : List String := m.map Prod.fst

/-- Map read `v, ok := m[k]`: `some v` when `ok`, `none` otherwise. -/
def mapGet {β : Type} : GoMap β → String → Option β
  | [], _ => none
  | (k', v) :: rest, k => if k' = k then some v else mapGet rest k

/-- Map write `m[k] = v`: replaces the entry under `k` when there is one,
adds an entry otherwise. -/
def mapSet {β : Type} : GoMap β → String → β → GoMap β
  | [], k, v => [(k, v)]
  | (k', v') :: rest, k, v =>
    if k' = k then (k, v) :: rest else (k', v') :: mapSet rest k v

/-! ## Package `strings` and `path/filepath` -/

/-- Go `strings.HasSuffix`: `len(s) >= len(suffix) && s[len(s)-len(suffix):] == suffix`. -/
def HasSuffix (s suffix : String) : Bool :=
  decide (suffix.data.length ≤ s.data.length) &&
    (s.data.drop (s.data.length - suffix.data.length) == suffix.data)

/-- Go `strings.TrimSuffix`: `s` without the trailing `suffix`, or `s` itself. -/
def TrimSuffix (s suffix : String) : String :=
  if HasSuffix s suffix then ⟨s.data.take (s.data.length - suffix.data.length)⟩ else s

/-- Go `strings.Join`. -/
def Join : List String → String → String
  | [], _ => ""
  | [a], _ => a
  | a :: b :: rest, sep => a ++ sep ++ Join (b :: rest) sep

/-- Backward scan of `filepath.Ext`: the first argument is the part of the path
still to be visited, last character first; the second is the part already
visited. -/
def extScan : List Char → List Char → List Char
  | [], _ => []
  | c :: before, after =>
    if c = '/' then []
    else if c = '.' then '.' :: after
    else extScan before (c :: after)

/-- Go `filepath.Ext`: the suffix beginning at the final dot in the final
element of the path, empty if there is no dot. -/
def Ext (path : String) : String := ⟨extScan path.data.reverse []⟩

/-- Go `filepath.Base`: the last element of the path, trailing separators
removed first; `.` for the empty path and `/` for a path of separators only. -/
def Base (path : String) : String :=
  if path.data = [] then "."
  else
    let stripped := (path.data.reverse.dropWhile (fun c => c == '/')).reverse
    let last := (stripped.reverse.takeWhile (fun c => c != '/')).reverse
    if last = [] then "/" else ⟨last⟩

/-! ## Diagnostics -/

/-- Severity of an HCL diagnostic. -/
inductive DiagnosticSeverity where
  | DiagError
  | DiagWarning
  deriving DecidableEq, Repr

/-- An HCL diagnostic. -/
structure Diagnostic where
  Severity : DiagnosticSeverity
  Summary : String
  deriving DecidableEq, Repr

/-- HCL `Diagnostics`. -/
abbrev Diagnostics := List Diagnostic

/-- HCL `Diagnostics.HasErrors`: some diagnostic has severity `DiagError`. -/
def HasErrors (diags : Diagnostics) : Bool :=
  diags.any (fun d => d.Severity == DiagnosticSeverity.DiagError)

/-! ## Values -/

/-- A number as `math/big.Float` holds it: a finite value or an infinity. -/
inductive BigFloat where
  | finite (q : ℚ)
  | inf (neg : Bool)

/-- Accuracy reported by `big.Float.Int64`. -/
inductive Accuracy where
  | Below
  | Exact
  | Above
  deriving DecidableEq, Repr

/-- Largest value of a Go `int64`. -/
def MaxInt64 : Int := 2 ^ 63 - 1

/-- Smallest value of a Go `int64`. -/
def MinInt64 : Int := -(2 ^ 63)

/-- Go `big.Float.Int64`: the value truncated towards zero, and `Exact` when
nothing was lost; a value out of range gives the nearest bound. -/
def BigFloat.Int64 : BigFloat → Int × Accuracy
  | .finite q =>
    let acc := if q.num < 0 then Accuracy.Above else Accuracy.Below
    if q.num.natAbs < 2 ^ 63 * q.den then
      (Int.tdiv q.num q.den, if q.den = 1 then Accuracy.Exact else acc)
    else if q.num < 0 then
      (MinInt64, if q.den = 1 ∧ q.num = MinInt64 then Accuracy.Exact else acc)
    else (MaxInt64, Accuracy.Below)
  | .inf neg => if neg then (MinInt64, Accuracy.Above) else (MaxInt64, Accuracy.Below)

/-- A `cty.Value`. `list` stands for a value of list or tuple type with its
elements in order, `map` for a value of map or object type with its entries in
the order of its element iterator, `other` for a value of any other type (set,
capsule, dynamic), carrying the text that the JSON fallback of `formatCtyValue`
produces for it. A number carries, next to its value, the text that
`fmt.Sprintf("%g", f)` produces for its `float64` conversion: formatting of
floating-point numbers is not part of the model. -/
inductive CtyValue where
  | null
  | string (s : String)
  | number (bf : BigFloat) (g : String)
  | bool (b : Bool)
  | list (elems : List CtyValue)
  | map (entries : List (CtyValue × CtyValue))
  | other (rendered : String)

mutual
/-- Source `formatCtyValue`: converts a `cty.Value` to a readable string. -/
def formatCtyValue : CtyValue → String
  | .null => "null"
  | .string s => s
  | .number bf g =>
    if (bf.Int64).2 = Accuracy.Exact then toString (bf.Int64).1 else g
  | .bool b => if b then "true" else "false"
  | .list elems => "[" ++ Join (formatItems elems) ", " ++ "]"
  | .map entries => "\x7b" ++ Join (formatPairs entries) ", " ++ "\x7d"
  | .other rendered => rendered
/-- The loop of `formatCtyValue` over the elements of a list or tuple. -/
def formatItems : List CtyValue → List String
  | [] => []
  | v :: rest => formatCtyValue v :: formatItems rest
/-- The loop of `formatCtyValue` over the entries of a map or object. -/
def formatPairs : List (CtyValue × CtyValue) → List String
  | [] => []
  | (k, v) :: rest => (formatCtyValue k ++ ": " ++ formatCtyValue v) :: formatPairs rest
end

/-! ## Expressions, bodies and blocks -/

/-- The value `cty.DynamicVal`, which HCL returns next to an error. -/
def DynamicVal : CtyValue := CtyValue.other "\x7b\x7d"

/-- An HCL expression, as far as evaluation without a context is concerned:
a literal, a reference to an identifier (such as `var.x` or the bare word
`string`), or any other expression, given by what `Value(nil)` returns. -/
inductive Expression where
  | literal (val : CtyValue)
  | traversal (root : String) (steps : List String)
  | general (val : CtyValue) (diags : Diagnostics)

/-- Modelled from the spec: `Expr.Value(nil)` of the HCL library. With an empty
context only literal and self-contained expressions succeed; an expression that
references an identifier reports an error diagnostic. -/
def Expression.Value : Expression → CtyValue × Diagnostics
  | .literal val => (val, [])
  | .traversal _ _ => (DynamicVal, [⟨DiagnosticSeverity.DiagError, "Variables not allowed"⟩])
  | .general val diags => (val, diags)

/-- HCL `Attribute`. -/
structure Attribute where
  Name : String
  Expr : Expression

/-- HCL `Attributes`, a `map[string]*Attribute`. -/
abbrev Attributes := GoMap Attribute

mutual
/-- An HCL body: the attributes and diagnostics that `JustAttributes` reports,
the child blocks, and the diagnostics that `PartialContent` reports beside those of
its label check. -/
inductive Body where
  | mk (attrs : Attributes) (attrDiags : Diagnostics)
      (blocks : List Block) (contentDiags : Diagnostics)
/-- HCL `Block`: type, labels and body. -/
inductive Block where
  | mk (type_ : String) (labels : List String) (body : Body)
end

/-- Field `Type` of a block. -/
def Block.Type_ : Block → String
  | .mk type_ _ _ => type_

/-- Field `Labels` of a block. -/
def Block.Labels : Block → List String
  | .mk _ labels _ => labels

/-- Field `Body` of a block. -/
def Block.Body : Block → Body
  | .mk _ _ body => body

/-- HCL `BlockHeaderSchema`. -/
structure BlockHeaderSchema where
  Type_ : String
  LabelNames : List String

/-- HCL `BodySchema`, restricted to its block headers. -/
structure BodySchema where
  Blocks : List BlockHeaderSchema

/-- HCL `Body.JustAttributes`. -/
def Body.JustAttributes : Body → Attributes × Diagnostics
  | .mk attrs attrDiags _ _ => (attrs, attrDiags)

/-- The header that a schema has for a block type, if it has one. -/
def BodySchema.header (schema : BodySchema) (type_ : String) : Option BlockHeaderSchema :=
  schema.Blocks.find? (fun h => h.Type_ == type_)

/-- The label check of HCL `PartialContent`: a block of a type that the schema names
is part of the content when it has as many labels as the header names. -/
def matchesSchema (schema : BodySchema) (block : Block) : Bool :=
  match schema.header block.Type_ with
  | none => false
  | some h => block.Labels.length == h.LabelNames.length

/-- The diagnostic of HCL `PartialContent` for a block of a type that the schema names
and with more or fewer labels than the header names. -/
def labelDiagnostic (schema : BodySchema) (block : Block) : Option Diagnostic :=
  match schema.header block.Type_ with
  | none => none
  | some h =>
    if block.Labels.length > h.LabelNames.length then
      some ⟨DiagnosticSeverity.DiagError, "Extraneous label for " ++ block.Type_⟩
    else if block.Labels.length < h.LabelNames.length then
      some ⟨DiagnosticSeverity.DiagError,
        "Missing " ++ h.LabelNames.getD block.Labels.length "" ++ " for " ++ block.Type_⟩
    else none

/-- HCL `Body.PartialContent`, restricted to the blocks of the content and the
diagnostics. The content holds, in source order, the child blocks whose type the schema
names and whose label count is the one of the header; a block of such a type with
another label count is left out and an error is reported for it. -/
def Body.PartialContent : Body → BodySchema → List Block × Diagnostics
  | .mk _ _ blocks contentDiags, schema =>
    (blocks.filter (matchesSchema schema),
      blocks.filterMap (labelDiagnostic schema) ++ contentDiags)

/-- HCL `File`. -/
structure File where
  Body : Body

/-- HCL `hclparse.Parser`, as the two parse methods the program calls. -/
structure Parser where
  ParseHCLFile : String → File × Diagnostics
  ParseJSONFile : String → File × Diagnostics

/-! ## The breakdown -/

/-- Source `Resource`. -/
structure Resource where
  Type_ : String
  Name : String
  File : String
  Attributes : GoMap String := []
  deriving DecidableEq, Repr

/-- Source `Module`. -/
structure Module where
  Name : String
  Source : String := ""
  File : String
  Attributes : GoMap String := []
  deriving DecidableEq, Repr

/-- Source `Provider`. -/
structure Provider where
  Name : String
  Alias : String := ""
  File : String
  Attributes : GoMap String := []
  deriving DecidableEq, Repr

/-- Source `Variable`. -/
structure Variable where
  Name : String
  Type_ : String := ""
  Description : String := ""
  Default : String := ""
  File : String
  deriving DecidableEq, Repr

/-- Source `TfVars`. -/
structure TfVars where
  File : String
  Values : GoMap String
  deriving DecidableEq, Repr

/-- Source `TerraformBreakdown`. -/
structure TerraformBreakdown where
  Resources : List Resource
  Modules : List Module
  Providers : List Provider
  Variables : List Variable
  TfVars : GoMap TfVars
  deriving DecidableEq, Repr

/-- The breakdown that `parseTerraformDirectory` starts from. -/
def emptyBreakdown : TerraformBreakdown :=
  { Resources := [], Modules := [], Providers := [], Variables := [], TfVars := [] }

/-! ## Extraction -/

/-- One iteration of the loop of `extractAttributes`. -/
def extractAttribute (attrs : GoMap String) (entry : String × Attribute) : GoMap String :=
  let (val, diags) := entry.2.Expr.Value
  if !HasErrors diags then
    let formatted := formatCtyValue val
    if formatted != "" then mapSet attrs entry.1 formatted else attrs
  else attrs

/-- Source `extractAttributes`. -/
def extractAttributes (body : Body) : GoMap String :=
  let (bodyAttrs, diags) := body.JustAttributes
  if HasErrors diags then []
  else bodyAttrs.foldl extractAttribute []

/-- The body of the inner loop of `extractRequiredProviders`: the provider is
added unless one with this name and file is already in the list. -/
def addRequiredProvider (filePath : String) (breakdown : TerraformBreakdown)
    (providerName : String) : TerraformBreakdown :=
  let found := breakdown.Providers.any (fun p => p.Name == providerName && p.File == filePath)
  if !found then
    { breakdown with
      Providers := breakdown.Providers ++ [{ Name := providerName, File := filePath }] }
  else breakdown

/-- The body of the outer loop of `extractRequiredProviders`. -/
def extractRequiredBlock (filePath : String) (breakdown : TerraformBreakdown)
    (block : Block) : TerraformBreakdown :=
  if block.Type_ = "required_providers" then
    (mapKeys (extractAttributes block.Body)).foldl (addRequiredProvider filePath) breakdown
  else breakdown

/-- Schema of `extractRequiredProviders`. -/
def requiredProvidersSchema : BodySchema :=
  { Blocks := [{ Type_ := "required_providers", LabelNames := [] }] }

/-- Source `extractRequiredProviders`. -/
def extractRequiredProviders (body : Body) (filePath : String)
    (breakdown : TerraformBreakdown) : TerraformBreakdown :=
  let (content, diags) := body.PartialContent requiredProvidersSchema
  if HasErrors diags then breakdown
  else content.foldl (extractRequiredBlock filePath) breakdown

/-- The record that the `resource` case of `extractFromFile` builds. -/
def buildResource (filePath label0 label1 : String) (body : Body) : Resource :=
  { Type_ := label0, Name := label1, File := filePath, Attributes := extractAttributes body }

/-- The record that the `module` case of `extractFromFile` builds. -/
def buildModule (filePath label0 : String) (body : Body) : Module :=
  let mod0 : Module :=
    { Name := label0, File := filePath, Attributes := extractAttributes body }
  match mapGet mod0.Attributes "source" with
  | some source => { mod0 with Source := source }
  | none => mod0

/-- The record that the `provider` case of `extractFromFile` builds. -/
def buildProvider (filePath label0 : String) (body : Body) : Provider :=
  let provider0 : Provider :=
    { Name := label0, File := filePath, Attributes := extractAttributes body }
  match mapGet provider0.Attributes "alias" with
  | some a => { provider0 with Alias := a }
  | none => provider0

/-- The record that the `variable` case of `extractFromFile` builds. -/
def buildVariable (filePath label0 : String) (body : Body) : Variable :=
  let var0 : Variable := { Name := label0, File := filePath }
  let attrs := extractAttributes body
  let var1 : Variable :=
    match mapGet attrs "type" with
    | some varType => { var0 with Type_ := varType }
    | none => var0
  let var2 : Variable :=
    match mapGet attrs "description" with
    | some desc => { var1 with Description := desc }
    | none => var1
  match mapGet attrs "default" with
  | some d => { var2 with Default := d }
  | none => var2

/-- The body of the loop of `extractFromFile`: the `switch` on the block type. -/
def extractBlock (filePath : String) (breakdown : TerraformBreakdown)
    (block : Block) : TerraformBreakdown :=
  if block.Type_ = "resource" then
    match block.Labels with
    | label0 :: label1 :: _ =>
      { breakdown with
        Resources := breakdown.Resources ++ [buildResource filePath label0 label1 block.Body] }
    | _ => breakdown
  else if block.Type_ = "module" then
    match block.Labels with
    | label0 :: _ =>
      { breakdown with
        Modules := breakdown.Modules ++ [buildModule filePath label0 block.Body] }
    | [] => breakdown
  else if block.Type_ = "provider" then
    match block.Labels with
    | label0 :: _ =>
      { breakdown with
        Providers := breakdown.Providers ++ [buildProvider filePath label0 block.Body] }
    | [] => breakdown
  else if block.Type_ = "variable" then
    match block.Labels with
    | label0 :: _ =>
      { breakdown with
        Variables := breakdown.Variables ++ [buildVariable filePath label0 block.Body] }
    | [] => breakdown
  else if block.Type_ = "terraform" then
    extractRequiredProviders block.Body filePath breakdown
  else breakdown

/-- Schema of `extractFromFile`. -/
def fileSchema : BodySchema :=
  { Blocks :=
      [ { Type_ := "resource", LabelNames := ["type", "name"] },
        { Type_ := "module", LabelNames := ["name"] },
        { Type_ := "provider", LabelNames := ["name"] },
        { Type_ := "terraform", LabelNames := [] },
        { Type_ := "variable", LabelNames := ["name"] },
        { Type_ := "output", LabelNames := [] },
        { Type_ := "data", LabelNames := ["type", "name"] } ] }

/-- Source `extractFromFile`. -/
def extractFromFile (body : Body) (filePath : String)
    (breakdown : TerraformBreakdown) : TerraformBreakdown :=
  let (content, diags) := body.PartialContent fileSchema
  if HasErrors diags then breakdown
  else content.foldl (extractBlock filePath) breakdown

/-! ## Variable-value files -/

/-- One iteration of the value loop of `parseTfVarsFile`. -/
def tfVarsValue (values : GoMap String) (entry : String × Attribute) : GoMap String :=
  let (val, valDiags) := entry.2.Expr.Value
  if !HasErrors valDiags then mapSet values entry.1 (formatCtyValue val) else values

/-- The storage key that `parseTfVarsFile` derives from the file path. -/
def tfVarsKey (filePath : String) : String :=
  let baseName := Base filePath
  let key := TrimSuffix baseName (Ext baseName)
  let key := if HasSuffix key ".tfvars" then TrimSuffix key ".tfvars" else key
  if key = "" then "terraform" else key

/-- The two errors of `parseTfVarsFile`. -/
inductive TfVarsError where
  | parseError (diags : Diagnostics)
  | attributeExtractionError (diags : Diagnostics)
  deriving DecidableEq, Repr

/-- The parse step of `parseTfVarsFile`: JSON for a path ending in `.json`,
native syntax otherwise. -/
def parseValueFile (parser : Parser) (filePath : String) : File × Diagnostics :=
  if HasSuffix filePath ".json" then parser.ParseJSONFile filePath
  else parser.ParseHCLFile filePath

/-- Source `parseTfVarsFile`: the returned error (`none` for `nil`) and the
breakdown after the call. -/
def parseTfVarsFile (parser : Parser) (filePath : String)
    (breakdown : TerraformBreakdown) : Option TfVarsError × TerraformBreakdown :=
  let (file, diags) := parseValueFile parser filePath
  if HasErrors diags then (some (TfVarsError.parseError diags), breakdown)
  else
    let (attrs, diags) := file.Body.JustAttributes
    if HasErrors diags then (some (TfVarsError.attributeExtractionError diags), breakdown)
    else
      let values := attrs.foldl tfVarsValue []
      let key := tfVarsKey filePath
      (none, { breakdown with TfVars := mapSet breakdown.TfVars key
                                { File := filePath, Values := values } })

/-! ## Notions used in the statements -/

/-- The (name, file) pairs of a provider list. -/
def providerKeys (ps : List Provider) : List (String × String) :=
  ps.map (fun p => (p.Name, p.File))

/-- The resources that the `resource` blocks with at least two labels of a block
list give, in block order. -/
def resourcesOf (filePath : String) : List Block → List Resource
  | [] => []
  | block :: rest =>
    if block.Type_ = "resource" then
      match block.Labels with
      | label0 :: label1 :: _ =>
        { Type_ := label0, Name := label1, File := filePath,
          Attributes := extractAttributes block.Body } :: resourcesOf filePath rest
      | _ => resourcesOf filePath rest
    else resourcesOf filePath rest

/-- Entries that the required-providers merge may append to `existing` for the file
`f`: each has only name and file set and repeats no (name, file) pair of `existing`,
and no name occurs twice. -/
def MergedOnly (f : String) (existing added : List Provider) : Prop :=
  (∀ p ∈ added, p = { Name := p.Name, File := f } ∧ (p.Name, f) ∉ providerKeys existing) ∧
    (added.map (fun p => p.Name)).Nodup

/-- The values that `parseTfVarsFile` records for a file body. -/
def tfVarsValues (body : Body) : GoMap String :=
  body.JustAttributes.1.foldl tfVarsValue []

/-! ## Example inputs -/

/-- A body without attributes and blocks. -/
def emptyBody : Body := Body.mk [] [] [] []

/-- The expression `{ source = "hashicorp/aws" }`. -/
def awsRequirement : Expression :=
  Expression.literal (CtyValue.map [(CtyValue.string "source", CtyValue.string "hashicorp/aws")])

/-- The block `required_providers { aws = { source = "hashicorp/aws" } }`. -/
def requiredProvidersAws : Block :=
  Block.mk "required_providers" []
    (Body.mk [("aws", { Name := "aws", Expr := awsRequirement })] [] [] [])

/-- The block `terraform { required_providers { aws = {...} } }`. -/
def terraformAws : Block :=
  Block.mk "terraform" [] (Body.mk [] [] [requiredProvidersAws] [])

/-- The block `provider "aws" {}`. -/
def providerAws : Block := Block.mk "provider" ["aws"] emptyBody

/-- The block `provider "aws" { alias = "west" }`. -/
def providerAwsWest : Block :=
  Block.mk "provider" ["aws"]
    (Body.mk [("alias", { Name := "alias", Expr := Expression.literal (CtyValue.string "west") })]
      [] [] [])

/-- A file with two explicit `provider "aws"` blocks, the second with an alias. -/
def twoAwsProviders : Body := Body.mk [] [] [providerAws, providerAwsWest] []

/-- A file with the `terraform` block first and the `provider` block second. -/
def terraformThenProvider : Body := Body.mk [] [] [terraformAws, providerAws] []

/-- A file with the `provider` block first and the `terraform` block second. -/
def providerThenTerraform : Body := Body.mk [] [] [providerAws, terraformAws] []

/-- The block `variable "region" { type = string, default = "us-east-1" }`:
`type` is the bare identifier `string`, `default` a string literal. -/
def regionVariable : Block :=
  Block.mk "variable" ["region"]
    (Body.mk
      [("type", { Name := "type", Expr := Expression.traversal "string" [] }),
       ("default", { Name := "default", Expr := Expression.literal (CtyValue.string "us-east-1") })]
      [] [] [])

/-- A file with the single block `regionVariable`. -/
def regionVariableFile : Body := Body.mk [] [] [regionVariable] []

/-- The body `{ a = 1, b = var.x }`. -/
def literalAndReference : Body :=
  Body.mk
    [("a", { Name := "a", Expr := Expression.literal (CtyValue.number (BigFloat.finite 1) "1") }),
     ("b", { Name := "b", Expr := Expression.traversal "var" ["x"] })]
    [] [] []

/-- The block `resource "aws_instance" "x" {}`. -/
def instanceX : Block := Block.mk "resource" ["aws_instance", "x"] emptyBody

/-- A file with the single block `instanceX`. -/
def instanceFile : Body := Body.mk [] [] [instanceX] []

/-- A file with the block `instanceX` and a `module` block without a label: the
matching leaves the `module` block out and reports an error for it. -/
def instanceFileWithError : Body :=
  Body.mk [] [] [instanceX, Block.mk "module" [] emptyBody] []

/-- The body of `terraform { required_providers { aws = {...} } required_providers "x" {} }`:
the matching returns the first nested block and reports an error for the second. -/
def terraformBodyWithError : Body :=
  Body.mk [] [] [requiredProvidersAws, Block.mk "required_providers" ["x"] emptyBody] []

/-- The body of `terraform { required_providers { aws = {...} } }`. -/
def terraformBodyAws : Body := Body.mk [] [] [requiredProvidersAws] []

/-- A breakdown with `provider "aws"` recorded for another file. -/
def otherFileAws : TerraformBreakdown :=
  { emptyBreakdown with Providers := [{ Name := "aws", File := "other.tf" }] }

/-- A value file with the single attribute `region = "us-east-1"`. -/
def regionEast : File :=
  { Body := Body.mk
      [("region", { Name := "region", Expr := Expression.literal (CtyValue.string "us-east-1") })]
      [] [] [] }

/-- A value file with the single attribute `region = "eu-west-1"`. -/
def regionWest : File :=
  { Body := Body.mk
      [("region", { Name := "region", Expr := Expression.literal (CtyValue.string "eu-west-1") })]
      [] [] [] }

/-- A parser that reads `regionEast` from every native file and `regionWest` from
every JSON file. -/
def eastWestParser : Parser :=
  { ParseHCLFile := fun _ => (regionEast, []), ParseJSONFile := fun _ => (regionWest, []) }

/-- A block with fewer labels than its case of `extractFromFile` asks for: a
`resource` block with fewer than two labels, or a `module`, `provider` or `variable`
block without a label. -/
def tooFewLabels (block : Block) : Bool :=
  (block.Type_ == "resource" && decide (block.Labels.length < 2)) ||
    ((block.Type_ == "module" || block.Type_ == "provider" || block.Type_ == "variable") &&
      block.Labels.isEmpty)

/-- The block `module "net" { source = "./net" }`. -/
def moduleNet : Block :=
  Block.mk "module" ["net"]
    (Body.mk [("source", { Name := "source", Expr := Expression.literal (CtyValue.string "./net") })]
      [] [] [])

/-- A file with `resource "aws_instance" "x" {}`, `module "net" {...}` and a `variable`
block without a label: the matching returns the first two blocks and reports an error
for the third. -/
def partlyMatchedFile : Body :=
  Body.mk [] [] [instanceX, moduleNet, Block.mk "variable" [] emptyBody] []

/-- The block `resource "aws_instance" {}`, with one label only. -/
def resourceOneLabel : Block := Block.mk "resource" ["aws_instance"] emptyBody

/-- A body with the attribute `a = 1` whose attribute enumeration reports an error next
to the attribute (a nested block is present). -/
def attributesWithError : Body :=
  Body.mk
    [("a", { Name := "a", Expr := Expression.literal (CtyValue.number (BigFloat.finite 1) "1") })]
    [⟨DiagnosticSeverity.DiagError, "Unexpected block"⟩]
    [Block.mk "lifecycle" [] emptyBody] []

/-- A body with the single attribute `x = ""`. -/
def emptyStringBody : Body :=
  Body.mk [("x", { Name := "x", Expr := Expression.literal (CtyValue.string "") })] [] [] []

/-- A parser that reads the body `emptyStringBody` from every file. -/
def emptyStringParser : Parser :=
  { ParseHCLFile := fun _ => ({ Body := emptyStringBody }, []),
    ParseJSONFile := fun _ => ({ Body := emptyStringBody }, []) }

/-- A value of one of the shapes null, string, number, boolean, list or tuple, map or
object. The `%g` text that a number carries is not empty, as no output of `%g` is. -/
def literalShape : CtyValue → Bool
  | .other _ => false
  | .number _ g => g != ""
  | _ => true

/-- The body `body2` is the `terraform` body `body1` with the attributes of its nested
blocks enumerated in another order: the matching gives the same verdict and blocks of
the same types, and the attribute enumeration of corresponding blocks gives the same
verdict and the same attributes up to their order. -/
def Reenumeration (body1 body2 : Body) : Prop :=
  HasErrors (body2.PartialContent requiredProvidersSchema).2 =
      HasErrors (body1.PartialContent requiredProvidersSchema).2 ∧
    List.Forall₂
      (fun block1 block2 =>
        block2.Type_ = block1.Type_ ∧
          HasErrors block2.Body.JustAttributes.2 = HasErrors block1.Body.JustAttributes.2 ∧
          block2.Body.JustAttributes.1.Perm block1.Body.JustAttributes.1)
      (body1.PartialContent requiredProvidersSchema).1
      (body2.PartialContent requiredProvidersSchema).1

/-- The expression `{ source = "hashicorp/google" }`. -/
def googleRequirement : Expression :=
  Expression.literal
    (CtyValue.map [(CtyValue.string "source", CtyValue.string "hashicorp/google")])

/-- The body of `terraform { required_providers { aws = {...}, google = {...} } }`, the
attributes enumerated as `aws`, `google`. -/
def awsGoogleBody : Body :=
  Body.mk [] []
    [Block.mk "required_providers" []
      (Body.mk [("aws", { Name := "aws", Expr := awsRequirement }),
                ("google", { Name := "google", Expr := googleRequirement })] [] [] [])] []

/-- The body `awsGoogleBody` with the attributes enumerated as `google`, `aws`. -/
def googleAwsBody : Body :=
  Body.mk [] []
    [Block.mk "required_providers" []
      (Body.mk [("google", { Name := "google", Expr := googleRequirement }),
                ("aws", { Name := "aws", Expr := awsRequirement })] [] [] [])] []

/-! ## The directory scan and its JSON form -/

/-- A Go value of slice type with its nil-ness, which `encoding/json` tells apart:
the nil slice, or a slice with its elements. -/
inductive GoSlice (α : Type) where
  | nil
  | elems (xs : List α)
  deriving DecidableEq, Repr

/-- A Go value of type `map[string]β` with its nil-ness: the nil map, or a map with its
entries. -/
inductive GoMapValue (β : Type) where
  | nil
  | entries (m : GoMap β)
  deriving DecidableEq, Repr

/-- The value of a slice variable once the program has brought its contents to `xs`
by appending: a nil slice to which nothing was appended is still nil, every other
slice is not nil. -/
def GoSlice.assign {α : Type} : GoSlice α → List α → GoSlice α
  | .nil, [] => .nil
  | _, xs => .elems xs

/-- Elements of a slice; the nil slice has none. -/
def GoSlice.toList {α : Type} : GoSlice α → List α
  | .nil => []
  | .elems xs => xs

/-- The value of a map variable once the program has brought its contents to `m`. -/
def GoMapValue.assign {β : Type} : GoMapValue β → GoMap β → GoMapValue β
  | .nil, [] => .nil
  | _, m => .entries m

/-- Entries of a map; the nil map has none. -/
def GoMapValue.toMap {β : Type} : GoMapValue β → GoMap β
  | .nil => []
  | .entries m => m

/-- A `TerraformBreakdown` as Go holds it, with the nil-ness of its five fields. -/
structure BreakdownValue where
  Resources : GoSlice Resource
  Modules : GoSlice Module
  Providers : GoSlice Provider
  Variables : GoSlice Variable
  TfVars : GoMapValue TfVars
  deriving DecidableEq, Repr

/-- The contents of a breakdown value. -/
def BreakdownValue.toBreakdown (v : BreakdownValue) : TerraformBreakdown :=
  { Resources := v.Resources.toList, Modules := v.Modules.toList,
    Providers := v.Providers.toList, Variables := v.Variables.toList,
    TfVars := v.TfVars.toMap }

/-- The breakdown value after a call that brought its contents to `b`. -/
def BreakdownValue.assign (v : BreakdownValue) (b : TerraformBreakdown) : BreakdownValue :=
  { Resources := v.Resources.assign b.Resources, Modules := v.Modules.assign b.Modules,
    Providers := v.Providers.assign b.Providers, Variables := v.Variables.assign b.Variables,
    TfVars := v.TfVars.assign b.TfVars }

/-- The composite literal with which `parseTerraformDirectory` starts: four empty
slices `[]T{}` and a map made by `make`, none of them nil. -/
def newBreakdown : BreakdownValue :=
  { Resources := GoSlice.elems [], Modules := GoSlice.elems [],
    Providers := GoSlice.elems [], Variables := GoSlice.elems [],
    TfVars := GoMapValue.entries [] }

/-- The zero value of `TerraformBreakdown`: every field nil. -/
def zeroBreakdown : BreakdownValue :=
  { Resources := GoSlice.nil, Modules := GoSlice.nil, Providers := GoSlice.nil,
    Variables := GoSlice.nil, TfVars := GoMapValue.nil }

/-- One call that `filepath.Walk` makes to the walk function: the path, whether the
entry is a directory, and the error that `Walk` passes on for it, if any. -/
structure WalkEntry where
  path : String
  isDir : Bool
  err : Option String
  deriving DecidableEq, Repr

/-- The walk function of `parseTerraformDirectory`: the error it returns, or the
breakdown after the call. -/
def walkFn (parser : Parser) (breakdown : BreakdownValue) (entry : WalkEntry) :
    Except String BreakdownValue :=
  match entry.err with
  | some err => Except.error err
  | none =>
    if entry.isDir then Except.ok breakdown
    else
      let ext := Ext entry.path
      let baseName := Base entry.path
      if ext = ".tfvars" ∨ HasSuffix baseName ".tfvars.json" = true then
        Except.ok
          (breakdown.assign (parseTfVarsFile parser entry.path breakdown.toBreakdown).2)
      else if ext ≠ ".tf" then Except.ok breakdown
      else
        let (file, diags) := parser.ParseHCLFile entry.path
        if HasErrors diags then Except.ok breakdown
        else
          Except.ok
            (breakdown.assign (extractFromFile file.Body entry.path breakdown.toBreakdown))

/-- Go `filepath.Walk`, as the sequence of its calls to the walk function: the walk
stops at the first call that returns an error. -/
def Walk (parser : Parser) : List WalkEntry → BreakdownValue → Except String BreakdownValue
  | [], breakdown => Except.ok breakdown
  | entry :: rest, breakdown =>
    match walkFn parser breakdown entry with
    | Except.error err => Except.error err
    | Except.ok next => Walk parser rest next

/-- Source `parseTerraformDirectory`; the directory is given by the calls that
`filepath.Walk` makes for it. -/
def parseTerraformDirectory (parser : Parser) (entries : List WalkEntry) :
    Except String BreakdownValue :=
  Walk parser entries newBreakdown

/-- A file that the walk function recognises: not a directory, and named `*.tf`,
`*.tfvars` or `*.tfvars.json`. -/
def recognised (entry : WalkEntry) : Bool :=
  !entry.isDir &&
    (Ext entry.path == ".tfvars" || HasSuffix (Base entry.path) ".tfvars.json" ||
      Ext entry.path == ".tf")

/-- The encoders of `encoding/json` for strings and for the records of the breakdown,
which are not part of the model. -/
structure Encoders where
  encKey : String → String
  encResource : Resource → String
  encModule : Module → String
  encProvider : Provider → String
  encVariable : Variable → String
  encTfVars : TfVars → String

/-- JSON form of a slice under `encoding/json`: `null` for the nil slice, otherwise
the elements between brackets. -/
def marshalSlice {α : Type} (enc : α → String) : GoSlice α → String
  | .nil => "null"
  | .elems xs => "[" ++ Join (xs.map enc) "," ++ "]"

/-- JSON form of a map with string keys under `encoding/json`: `null` for the nil
map, otherwise the members between braces, sorted by key. -/
def marshalMap {β : Type} (encKey : String → String) (enc : β → String) :
    GoMapValue β → String
  | .nil => "null"
  | .entries m =>
    "\x7b" ++
      Join ((m.mergeSort (fun a b => decide (a.1 ≤ b.1))).map
        (fun e => encKey e.1 ++ ":" ++ enc e.2)) "," ++ "\x7d"

/-- Go `json.Marshal` of a breakdown: the five fields under their JSON names, none of
them with `omitempty`. -/
def Marshal (enc : Encoders) (v : BreakdownValue) : String :=
  "\x7b\"resources\":" ++ marshalSlice enc.encResource v.Resources ++
    ",\"modules\":" ++ marshalSlice enc.encModule v.Modules ++
    ",\"providers\":" ++ marshalSlice enc.encProvider v.Providers ++
    ",\"variables\":" ++ marshalSlice enc.encVariable v.Variables ++
    ",\"tfvars\":" ++ marshalMap enc.encKey enc.encTfVars v.TfVars ++ "\x7d"

/-- The calls of a walk over a directory with a sub-directory and two files that are
not Terraform files. -/
def unrecognisedWalk : List WalkEntry :=
  [{ path := "infra", isDir := true, err := none },
   { path := "infra/README.md", isDir := false, err := none },
   { path := "infra/docs", isDir := true, err := none },
   { path := "infra/docs/main.tf.bak", isDir := false, err := none }]

/-- Every explicit `provider` block of the list is met, in the run of the loop of
`extractFromFile` from `breakdown`, at a moment when no provider with its name and the
file is recorded. -/
def providerBlocksNew (filePath : String) : TerraformBreakdown → List Block → Bool
  | _, [] => true
  | breakdown, block :: rest =>
    (if block.Type_ = "provider" then
      match block.Labels with
      | label0 :: _ =>
        !breakdown.Providers.any (fun p => p.Name == label0 && p.File == filePath)
      | [] => true
    else true) &&
      providerBlocksNew filePath (extractBlock filePath breakdown block) rest

/-- The block `provider "google" {}`. -/
def providerGoogle : Block := Block.mk "provider" ["google"] emptyBody

/-- A file with `terraform { required_providers { aws = {...} } }` followed by
`provider "google" {}`. -/
def terraformThenGoogle : Body := Body.mk [] [] [terraformAws, providerGoogle] []

/-- A file with a `terraform` block without `required_providers` followed by
`provider "aws" {}`. -/
def bareTerraformThenProvider : Body :=
  Body.mk [] [] [Block.mk "terraform" [] emptyBody, providerAws] []

/-- A file with `resource "aws_instance" "x" {}`, the one-label block
`resource "aws_instance" {}` and `module "net" {...}`. -/
def oneLabelFile : Body := Body.mk [] [] [instanceX, resourceOneLabel, moduleNet] []

/-- The file `oneLabelFile` without its one-label block. -/
def oneLabelRemovedFile : Body := Body.mk [] [] [instanceX, moduleNet] []

theorem addRequiredProvider_providers (f : String) (b : TerraformBreakdown) (n : String) :
    (addRequiredProvider f b n).Providers =
      if b.Providers.any (fun p => p.Name == n && p.File == f) then b.Providers
      else b.Providers ++ [{ Name := n, File := f }] := by
  unfold addRequiredProvider
  by_cases h : b.Providers.any (fun p => p.Name == n && p.File == f) = true
  · simp [h]
  · simp only [Bool.not_eq_true] at h
    simp [h]

theorem any_key_iff (ps : List Provider) (n f : String) :
    ps.any (fun p => p.Name == n && p.File == f) = true ↔ (n, f) ∈ providerKeys ps := by
  simp only [providerKeys, List.any_eq_true, List.mem_map, Bool.and_eq_true, beq_iff_eq,
    Prod.mk.injEq]

theorem addRequiredProvider_nodup (f : String) (b : TerraformBreakdown) (n : String)
    (h : (providerKeys b.Providers).Nodup) :
    (providerKeys (addRequiredProvider f b n).Providers).Nodup := by
  rw [addRequiredProvider_providers]
  by_cases hf : b.Providers.any (fun p => p.Name == n && p.File == f) = true
  · simpa [hf] using h
  · have hnot : (n, f) ∉ providerKeys b.Providers := fun hm => hf ((any_key_iff _ _ _).2 hm)
    simp only [hf, Bool.false_eq_true, if_false]
    unfold providerKeys at *
    rw [List.map_append, List.nodup_append]
    refine ⟨h, by simp, ?_⟩
    intro a ha hb
    simp at hb
    subst hb
    exact hnot ha

theorem foldl_addRequiredProvider_nodup (f : String) (names : List String)
    (b : TerraformBreakdown) (h : (providerKeys b.Providers).Nodup) :
    (providerKeys (names.foldl (addRequiredProvider f) b).Providers).Nodup := by
  induction names generalizing b with
  | nil => simpa using h
  | cons n rest ih => exact ih _ (addRequiredProvider_nodup f b n h)

theorem extractRequiredBlock_nodup (f : String) (b : TerraformBreakdown) (block : Block)
    (h : (providerKeys b.Providers).Nodup) :
    (providerKeys (extractRequiredBlock f b block).Providers).Nodup := by
  unfold extractRequiredBlock
  split
  · exact foldl_addRequiredProvider_nodup f _ b h
  · exact h

theorem extractRequiredProviders_nodup (body : Body) (f : String) (b : TerraformBreakdown)
    (h : (providerKeys b.Providers).Nodup) :
    (providerKeys (extractRequiredProviders body f b).Providers).Nodup := by
  unfold extractRequiredProviders
  simp only
  split
  · exact h
  · generalize (body.PartialContent requiredProvidersSchema).1 = blocks
    induction blocks generalizing b with
    | nil => simpa using h
    | cons blk rest ih => exact ih _ (extractRequiredBlock_nodup f b blk h)

theorem buildProvider_key (f l0 : String) (body : Body) :
    ((buildProvider f l0 body).Name, (buildProvider f l0 body).File) = (l0, f) := by
  unfold buildProvider
  simp only
  split <;> rfl

theorem extractBlock_nodup_of_not_provider (f : String) (b : TerraformBreakdown) (block : Block)
    (hty : block.Type_ ≠ "provider") (h : (providerKeys b.Providers).Nodup) :
    (providerKeys (extractBlock f b block).Providers).Nodup := by
  unfold extractBlock
  split_ifs
  · split <;> exact h
  · split <;> exact h
  · split <;> exact h
  · exact extractRequiredProviders_nodup _ f b h
  · exact h

/-! ## C1: provider uniqueness per file -/

/-- C1 (counterexample): a file with `terraform { required_providers { aws = {...} } }`
followed by `provider "aws" {}` yields two providers named `aws` for that file, so two
entries of `Providers` have the same name and the same file; so does a file with two
explicit `provider "aws"` blocks, one of them with an alias. -/
theorem provider_uniqueness_counterexample :
    (extractFromFile terraformThenProvider "main.tf" emptyBreakdown).Providers =
        [{ Name := "aws", File := "main.tf" }, { Name := "aws", File := "main.tf" }] ∧
      ¬ (providerKeys
          (extractFromFile terraformThenProvider "main.tf" emptyBreakdown).Providers).Nodup ∧
      (extractFromFile twoAwsProviders "main.tf" emptyBreakdown).Providers =
        [{ Name := "aws", File := "main.tf" },
         { Name := "aws", Alias := "west", File := "main.tf",
           Attributes := [("alias", "west")] }] ∧
      ¬ (providerKeys
          (extractFromFile twoAwsProviders "main.tf" emptyBreakdown).Providers).Nodup := by
  decide

theorem extractBlock_nodup_of_new (f : String) (b : TerraformBreakdown) (block : Block)
    (h : (providerKeys b.Providers).Nodup)
    (hnew : providerBlocksNew f b [block] = true) :
    (providerKeys (extractBlock f b block).Providers).Nodup := by
  by_cases hty : block.Type_ = "provider"
  · simp only [providerBlocksNew, hty, if_true, Bool.and_true] at hnew
    unfold extractBlock
    simp only [hty, String.reduceEq, if_true, if_false]
    rcases hl : block.Labels with _ | ⟨l0, ls⟩
    · exact h
    · rw [hl] at hnew
      simp only [Bool.not_eq_true', ] at hnew
      have hnot : (l0, f) ∉ providerKeys b.Providers := by
        intro hm
        have := (any_key_iff _ _ _).2 hm
        rw [hnew] at this
        exact Bool.false_ne_true this
      simp only [providerKeys, List.map_append, List.map_cons, List.map_nil]
      rw [List.nodup_append]
      refine ⟨h, by simp, ?_⟩
      intro a ha hb
      simp only [List.mem_singleton] at hb
      rw [hb, buildProvider_key] at ha
      exact hnot ha
  · exact extractBlock_nodup_of_not_provider f b block hty h

theorem providerBlocksNew_cons (f : String) (b : TerraformBreakdown) (block : Block)
    (rest : List Block) :
    providerBlocksNew f b (block :: rest) =
      (providerBlocksNew f b [block] && providerBlocksNew f (extractBlock f b block) rest) := by
  simp [providerBlocksNew]

theorem foldl_extractBlock_nodup_of_new (f : String) (blocks : List Block)
    (b : TerraformBreakdown) (h : (providerKeys b.Providers).Nodup)
    (hnew : providerBlocksNew f b blocks = true) :
    (providerKeys (blocks.foldl (extractBlock f) b).Providers).Nodup := by
  induction blocks generalizing b with
  | nil => simpa using h
  | cons blk rest ih =>
    rw [providerBlocksNew_cons, Bool.and_eq_true] at hnew
    simp only [List.foldl_cons]
    exact ih _ (extractBlock_nodup_of_new f b blk h hnew.1) hnew.2

/-- C1 (amended): starting from a breakdown in which no two providers have the same
name and the same file (the empty breakdown is one), when no explicit `provider` block
of the body is met while a provider with its name and the file is already recorded, no
two entries of `Providers` have the same name and the same file after
`extractFromFile`. -/
theorem providers_unique_when_unrecorded (body : Body) (f : String)
    (b : TerraformBreakdown)
    (hstart : (providerKeys b.Providers).Nodup)
    (hnew : providerBlocksNew f b (body.PartialContent fileSchema).1 = true) :
    (providerKeys (extractFromFile body f b).Providers).Nodup := by
  unfold extractFromFile
  simp only
  split
  · exact hstart
  · exact foldl_extractBlock_nodup_of_new f _ b hstart hnew

/-- C1 (amended, witness): `provider "aws" {}` followed by
`terraform { required_providers { aws = {...} } }` yields exactly one provider named
`aws`; `terraform { required_providers { aws = {...} } }` followed by
`provider "google" {}`, and a `terraform` block without `required_providers` followed by
`provider "aws" {}`, yield providers with distinct names. -/
theorem providers_unique_when_unrecorded_witness :
    ((providerKeys
        (extractFromFile providerThenTerraform "main.tf" emptyBreakdown).Providers).Nodup ∧
      (extractFromFile providerThenTerraform "main.tf" emptyBreakdown).Providers =
        [{ Name := "aws", File := "main.tf" }]) ∧
    ((providerKeys
        (extractFromFile terraformThenGoogle "main.tf" emptyBreakdown).Providers).Nodup ∧
      (extractFromFile terraformThenGoogle "main.tf" emptyBreakdown).Providers =
        [{ Name := "aws", File := "main.tf" }, { Name := "google", File := "main.tf" }]) ∧
    ((providerKeys
        (extractFromFile bareTerraformThenProvider "main.tf" emptyBreakdown).Providers).Nodup ∧
      (extractFromFile bareTerraformThenProvider "main.tf" emptyBreakdown).Providers =
        [{ Name := "aws", File := "main.tf" }]) :=
  ⟨⟨providers_unique_when_unrecorded providerThenTerraform "main.tf" emptyBreakdown
      (by decide) (by decide), by decide⟩,
    ⟨providers_unique_when_unrecorded terraformThenGoogle "main.tf" emptyBreakdown
      (by decide) (by decide), by decide⟩,
    ⟨providers_unique_when_unrecorded bareTerraformThenProvider "main.tf" emptyBreakdown
      (by decide) (by decide), by decide⟩⟩

/-! ## C2: the variable record scenario -/

/-- C2 (counterexample): for `variable "region" { type = string, default = "us-east-1" }`
the appended variable does not have `Type = "string"`. -/
theorem variable_scenario_counterexample :
    (extractFromFile regionVariableFile "main.tf" emptyBreakdown).Variables ≠
      [{ Name := "region", Type_ := "string", Default := "us-east-1", File := "main.tf" }] := by
  decide

/-- C2 (amended): for `variable "region" { type = string, default = "us-east-1" }` in
`main.tf`, `extractFromFile` appends exactly one variable, with name `region`, default
`us-east-1`, file `main.tf`, empty description and empty type, and changes nothing else. -/
theorem variable_scenario (b : TerraformBreakdown) :
    extractFromFile regionVariableFile "main.tf" b =
      { b with
        Variables := b.Variables ++
          [{ Name := "region", Type_ := "", Description := "", Default := "us-east-1",
             File := "main.tf" }] } := by
  rfl

/-! ## C3: characterisation of `extractAttributes` -/

theorem mapGet_mapSet_self {β : Type} (m : GoMap β) (k : String) (v : β) :
    mapGet (mapSet m k v) k = some v := by
  induction m with
  | nil => simp [mapSet, mapGet]
  | cons e rest ih =>
    obtain ⟨k', v'⟩ := e
    by_cases h : k' = k
    · simp [mapSet, mapGet, h]
    · simp [mapSet, mapGet, h, ih]

theorem mapGet_mapSet_of_ne {β : Type} (m : GoMap β) (k n : String) (v : β) (h : k ≠ n) :
    mapGet (mapSet m k v) n = mapGet m n := by
  induction m with
  | nil => simp [mapSet, mapGet, h]
  | cons e rest ih =>
    obtain ⟨k', v'⟩ := e
    by_cases hk : k' = k
    · subst hk
      simp [mapSet, mapGet, h]
    · simp [mapSet, mapGet, hk, ih]

theorem mapGet_eq_none_of_not_mem {β : Type} (m : GoMap β) (n : String)
    (h : n ∉ mapKeys m) : mapGet m n = none := by
  induction m with
  | nil => rfl
  | cons e rest ih =>
    obtain ⟨k', v'⟩ := e
    simp only [mapKeys, List.map_cons, List.mem_cons, not_or] at h
    simp only [mapGet]
    rw [if_neg (fun hk => h.1 hk.symm)]
    exact ih h.2

/-- What one iteration of `extractAttributes` records for an attribute. -/
theorem extractAttribute_get_self (acc : GoMap String) (n : String) (attr : Attribute) :
    mapGet (extractAttribute acc (n, attr)) n =
      if HasErrors attr.Expr.Value.2 = false ∧ formatCtyValue attr.Expr.Value.1 ≠ "" then
        some (formatCtyValue attr.Expr.Value.1)
      else mapGet acc n := by
  unfold extractAttribute
  by_cases h1 : HasErrors attr.Expr.Value.2 = true
  · simp [h1]
  · simp only [Bool.not_eq_true] at h1
    by_cases h2 : formatCtyValue attr.Expr.Value.1 = ""
    · simp [h1, h2]
    · simp [h1, h2, mapGet_mapSet_self]

theorem extractAttribute_get_of_ne (acc : GoMap String) (k n : String) (attr : Attribute)
    (h : k ≠ n) : mapGet (extractAttribute acc (k, attr)) n = mapGet acc n := by
  unfold extractAttribute
  simp only
  split
  · split
    · exact mapGet_mapSet_of_ne _ _ _ _ h
    · rfl
  · rfl

theorem foldl_extractAttribute_get_of_not_mem (l : Attributes) (acc : GoMap String) (n : String)
    (h : n ∉ mapKeys l) : mapGet (l.foldl extractAttribute acc) n = mapGet acc n := by
  induction l generalizing acc with
  | nil => rfl
  | cons e rest ih =>
    obtain ⟨k, attr⟩ := e
    simp only [mapKeys, List.map_cons, List.mem_cons, not_or] at h
    simp only [List.foldl_cons]
    rw [ih _ h.2]
    exact extractAttribute_get_of_ne acc k n attr (fun hk => h.1 hk.symm)

theorem foldl_extractAttribute_get_of_mem (l : Attributes) (acc : GoMap String) (n : String)
    (attr : Attribute) (hnodup : (mapKeys l).Nodup) (hmem : (n, attr) ∈ l) :
    mapGet (l.foldl extractAttribute acc) n =
      if HasErrors attr.Expr.Value.2 = false ∧ formatCtyValue attr.Expr.Value.1 ≠ "" then
        some (formatCtyValue attr.Expr.Value.1)
      else mapGet acc n := by
  induction l generalizing acc with
  | nil => simp at hmem
  | cons e rest ih =>
    obtain ⟨k, a⟩ := e
    simp only [mapKeys, List.map_cons, List.nodup_cons] at hnodup
    simp only [List.foldl_cons]
    rcases List.mem_cons.1 hmem with heq | hrest
    · obtain ⟨hk, ha⟩ := Prod.mk.inj heq
      subst hk; subst ha
      rw [foldl_extractAttribute_get_of_not_mem rest _ n hnodup.1]
      exact extractAttribute_get_self acc n attr
    · have hne : k ≠ n := by
        intro hk
        subst hk
        exact hnodup.1 (List.mem_map.2 ⟨(k, attr), hrest, rfl⟩)
      rw [ih _ hnodup.2 hrest, extractAttribute_get_of_ne acc k n a hne]

/-- C3: when the attribute enumeration of a body succeeds, the mapping returned by
`extractAttributes` holds a name `n` with value `s` exactly when the body has an
attribute `n` whose expression evaluates without error under the empty context to a
value whose formatted text is `s` and `s` is not empty; an attribute whose expression
references an identifier is absent; and the body `{a = 1, b = var.x}` gives exactly
`{a: "1"}`. -/
theorem extractAttributes_characterisation (body : Body)
    (hok : HasErrors body.JustAttributes.2 = false)
    (hkeys : (mapKeys body.JustAttributes.1).Nodup) :
    (∀ n s, mapGet (extractAttributes body) n = some s ↔
        ∃ attr, (n, attr) ∈ body.JustAttributes.1 ∧ HasErrors attr.Expr.Value.2 = false ∧
          formatCtyValue attr.Expr.Value.1 = s ∧ s ≠ "") ∧
      (∀ n attr root steps, (n, attr) ∈ body.JustAttributes.1 →
        attr.Expr = Expression.traversal root steps →
          mapGet (extractAttributes body) n = none) ∧
      extractAttributes literalAndReference = [("a", "1")] := by
  have hdef : extractAttributes body = body.JustAttributes.1.foldl extractAttribute [] := by
    unfold extractAttributes
    simp [hok]
  refine ⟨?_, ?_, by decide⟩
  · intro n s
    rw [hdef]
    constructor
    · intro hget
      by_cases hmem : n ∈ mapKeys body.JustAttributes.1
      · obtain ⟨⟨k, attr⟩, hin, hk⟩ := List.mem_map.1 hmem
        simp only at hk
        subst hk
        rw [foldl_extractAttribute_get_of_mem _ _ _ attr hkeys hin] at hget
        split at hget
        · rename_i hgood
          refine ⟨attr, hin, hgood.1, ?_, ?_⟩
          · exact Option.some.inj hget
          · rw [← Option.some.inj hget]; exact hgood.2
        · simp [mapGet] at hget
      · rw [foldl_extractAttribute_get_of_not_mem _ _ _ hmem] at hget
        simp [mapGet] at hget
    · rintro ⟨attr, hin, hval, hfmt, hne⟩
      rw [foldl_extractAttribute_get_of_mem _ _ _ attr hkeys hin]
      rw [if_pos ⟨hval, by rw [hfmt]; exact hne⟩, hfmt]
  · intro n attr root steps hin hexpr
    rw [hdef, foldl_extractAttribute_get_of_mem _ _ _ attr hkeys hin]
    have herr : HasErrors attr.Expr.Value.2 = true := by
      rw [hexpr]; rfl
    simp [herr, mapGet]

/-- C3 (witness): the body `{a = 1, b = var.x}`. -/
theorem extractAttributes_characterisation_witness :
    (∀ n s, mapGet (extractAttributes literalAndReference) n = some s ↔
        ∃ attr, (n, attr) ∈ literalAndReference.JustAttributes.1 ∧
          HasErrors attr.Expr.Value.2 = false ∧
          formatCtyValue attr.Expr.Value.1 = s ∧ s ≠ "") ∧
      (∀ n attr root steps, (n, attr) ∈ literalAndReference.JustAttributes.1 →
        attr.Expr = Expression.traversal root steps →
          mapGet (extractAttributes literalAndReference) n = none) ∧
      extractAttributes literalAndReference = [("a", "1")] :=
  extractAttributes_characterisation literalAndReference (by decide) (by decide)

/-! ## C4: resources are appended in encounter order -/

theorem addRequiredProvider_frame (f : String) (b : TerraformBreakdown) (n : String) :
    addRequiredProvider f b n =
      { b with Providers := (addRequiredProvider f b n).Providers } := by
  unfold addRequiredProvider
  simp only
  split <;> rfl

theorem foldl_addRequiredProvider_frame (f : String) (names : List String)
    (b : TerraformBreakdown) :
    names.foldl (addRequiredProvider f) b =
      { b with Providers := (names.foldl (addRequiredProvider f) b).Providers } := by
  induction names generalizing b with
  | nil => rfl
  | cons n rest ih =>
    simp only [List.foldl_cons]
    rw [ih]
    rw [addRequiredProvider_frame f b n]

theorem extractRequiredBlock_frame (f : String) (b : TerraformBreakdown) (block : Block) :
    extractRequiredBlock f b block =
      { b with Providers := (extractRequiredBlock f b block).Providers } := by
  unfold extractRequiredBlock
  split
  · exact foldl_addRequiredProvider_frame f _ b
  · rfl

theorem foldl_extractRequiredBlock_frame (f : String) (blocks : List Block)
    (b : TerraformBreakdown) :
    blocks.foldl (extractRequiredBlock f) b =
      { b with Providers := (blocks.foldl (extractRequiredBlock f) b).Providers } := by
  induction blocks generalizing b with
  | nil => rfl
  | cons blk rest ih =>
    simp only [List.foldl_cons]
    rw [ih]
    rw [extractRequiredBlock_frame f b blk]

theorem extractRequiredProviders_frame (body : Body) (f : String) (b : TerraformBreakdown) :
    extractRequiredProviders body f b =
      { b with Providers := (extractRequiredProviders body f b).Providers } := by
  unfold extractRequiredProviders
  simp only
  split
  · rfl
  · exact foldl_extractRequiredBlock_frame f _ b

theorem extractBlock_resources (f : String) (b : TerraformBreakdown) (block : Block) :
    (extractBlock f b block).Resources = b.Resources ++ resourcesOf f [block] := by
  unfold extractBlock
  simp only [resourcesOf]
  by_cases hr : block.Type_ = "resource"
  · simp only [hr, if_true]
    split <;> simp [buildResource]
  · simp only [hr, if_false]
    split_ifs
    · split <;> simp
    · split <;> simp
    · split <;> simp
    · rw [extractRequiredProviders_frame]; simp
    · simp

theorem foldl_extractBlock_resources (f : String) (blocks : List Block)
    (b : TerraformBreakdown) :
    (blocks.foldl (extractBlock f) b).Resources = b.Resources ++ resourcesOf f blocks := by
  induction blocks generalizing b with
  | nil => simp [resourcesOf]
  | cons blk rest ih =>
    simp only [List.foldl_cons]
    rw [ih, extractBlock_resources]
    simp only [resourcesOf, List.append_assoc]
    congr 1
    split
    · split <;> simp
    · simp

/-- C4 (counterexample): a file whose matching reports an error contributes no
resource, although its matched blocks hold `resource "aws_instance" "x"`. -/
theorem resources_appended_counterexample :
    (extractFromFile instanceFileWithError "a.tf" emptyBreakdown).Resources = [] ∧
      emptyBreakdown.Resources ++
          resourcesOf "a.tf" (instanceFileWithError.PartialContent fileSchema).1 =
        [{ Type_ := "aws_instance", Name := "x", File := "a.tf" }] ∧
      (extractFromFile instanceFileWithError "a.tf" emptyBreakdown).Resources ≠
        emptyBreakdown.Resources ++
          resourcesOf "a.tf" (instanceFileWithError.PartialContent fileSchema).1 := by
  decide

/-- C4 (amended): when the matching of the body reports no error, `Resources` after
`extractFromFile` is the previous `Resources` followed by one resource (type = first
label, name = second label, file = the file path, attributes = `extractAttributes` of
the block body) for each `resource` block with at least two labels, in block order,
without de-duplication; so two files that each declare `resource "aws_instance" "x"`
give two entries, in the order in which the files are processed. -/
theorem resources_appended_in_order (body : Body) (f : String) (b : TerraformBreakdown)
    (hok : HasErrors (body.PartialContent fileSchema).2 = false) :
    (extractFromFile body f b).Resources =
        b.Resources ++ resourcesOf f (body.PartialContent fileSchema).1 ∧
      (extractFromFile instanceFile "b.tf"
          (extractFromFile instanceFile "a.tf" emptyBreakdown)).Resources =
        [{ Type_ := "aws_instance", Name := "x", File := "a.tf" },
         { Type_ := "aws_instance", Name := "x", File := "b.tf" }] := by
  refine ⟨?_, by decide⟩
  unfold extractFromFile
  simp only [hok, Bool.false_eq_true, if_false]
  exact foldl_extractBlock_resources f _ b

/-- C4 (amended, witness): the file with the single block `resource "aws_instance" "x"`. -/
theorem resources_appended_in_order_witness :
    (extractFromFile instanceFile "a.tf" emptyBreakdown).Resources =
        emptyBreakdown.Resources ++ resourcesOf "a.tf" (instanceFile.PartialContent fileSchema).1 ∧
      (extractFromFile instanceFile "b.tf"
          (extractFromFile instanceFile "a.tf" emptyBreakdown)).Resources =
        [{ Type_ := "aws_instance", Name := "x", File := "a.tf" },
         { Type_ := "aws_instance", Name := "x", File := "b.tf" }] :=
  resources_appended_in_order instanceFile "a.tf" emptyBreakdown (by decide)

/-! ## C5: postcondition of the required-providers merge -/

theorem providerKeys_append (xs ys : List Provider) :
    providerKeys (xs ++ ys) = providerKeys xs ++ providerKeys ys := by
  simp [providerKeys]

theorem addRequiredProvider_step (f : String) (b0 : TerraformBreakdown)
    (added : List Provider) (n : String) (h : MergedOnly f b0.Providers added) :
    ∃ ext, addRequiredProvider f { b0 with Providers := b0.Providers ++ added } n =
        { b0 with Providers := b0.Providers ++ (added ++ ext) } ∧
      MergedOnly f b0.Providers (added ++ ext) ∧ (∀ p ∈ ext, p.Name = n) ∧
      (n, f) ∈ providerKeys (b0.Providers ++ (added ++ ext)) := by
  by_cases hf : (b0.Providers ++ added).any (fun p => p.Name == n && p.File == f) = true
  · refine ⟨[], ?_, by simpa using h, by simp, ?_⟩
    · rw [addRequiredProvider_frame, addRequiredProvider_providers]
      simp [hf]
    · simpa using (any_key_iff _ _ _).1 hf
  · have hnot : (n, f) ∉ providerKeys (b0.Providers ++ added) :=
      fun hm => hf ((any_key_iff _ _ _).2 hm)
    rw [providerKeys_append, List.mem_append, not_or] at hnot
    refine ⟨[{ Name := n, File := f }], ?_, ⟨?_, ?_⟩, by simp, ?_⟩
    · rw [addRequiredProvider_frame, addRequiredProvider_providers]
      simp [hf]
    · intro p hp
      rcases List.mem_append.1 hp with hp | hp
      · exact h.1 p hp
      · simp only [List.mem_singleton] at hp
        subst hp
        exact ⟨rfl, hnot.1⟩
    · rw [List.map_append, List.nodup_append]
      refine ⟨h.2, by simp, ?_⟩
      intro a ha hb
      simp only [List.map_cons, List.map_nil, List.mem_singleton] at hb
      subst hb
      obtain ⟨q, hq, hqn⟩ := List.mem_map.1 ha
      apply hnot.2
      refine List.mem_map.2 ⟨q, hq, ?_⟩
      have hform := (h.1 q hq).1
      rw [hform]
      simp only at hqn ⊢
      rw [hqn]
    · simp [providerKeys]

theorem foldl_addRequiredProvider_step (f : String) (b0 : TerraformBreakdown)
    (names : List String) (added : List Provider) (h : MergedOnly f b0.Providers added) :
    ∃ ext, names.foldl (addRequiredProvider f) { b0 with Providers := b0.Providers ++ added } =
        { b0 with Providers := b0.Providers ++ (added ++ ext) } ∧
      MergedOnly f b0.Providers (added ++ ext) ∧ (∀ p ∈ ext, p.Name ∈ names) ∧
      (∀ n ∈ names, (n, f) ∈ providerKeys (b0.Providers ++ (added ++ ext))) := by
  induction names generalizing added with
  | nil => exact ⟨[], by simp, by simpa using h, by simp, by simp⟩
  | cons n rest ih =>
    obtain ⟨ext1, heq1, hm1, hn1, hc1⟩ := addRequiredProvider_step f b0 added n h
    obtain ⟨ext2, heq2, hm2, hn2, hc2⟩ := ih (added ++ ext1) hm1
    refine ⟨ext1 ++ ext2, ?_, ?_, ?_, ?_⟩
    · simp only [List.foldl_cons]
      rw [heq1, heq2, List.append_assoc]
    · rw [← List.append_assoc]; exact hm2
    · intro p hp
      rcases List.mem_append.1 hp with hp | hp
      · rw [hn1 p hp]; exact List.mem_cons_self _ _
      · exact List.mem_cons_of_mem _ (hn2 p hp)
    · intro m hm
      have e : b0.Providers ++ (added ++ (ext1 ++ ext2)) =
          (b0.Providers ++ (added ++ ext1)) ++ ext2 := by simp
      rcases List.mem_cons.1 hm with hm | hm
      · subst hm
        rw [e, providerKeys_append]
        exact List.mem_append_left _ hc1
      · simpa [List.append_assoc] using hc2 m hm

theorem foldl_extractRequiredBlock_step (f : String) (b0 : TerraformBreakdown)
    (blocks : List Block) (added : List Provider) (h : MergedOnly f b0.Providers added) :
    ∃ ext, blocks.foldl (extractRequiredBlock f) { b0 with Providers := b0.Providers ++ added } =
        { b0 with Providers := b0.Providers ++ (added ++ ext) } ∧
      MergedOnly f b0.Providers (added ++ ext) ∧
      (∀ p ∈ ext, ∃ blk ∈ blocks, blk.Type_ = "required_providers" ∧
        p.Name ∈ mapKeys (extractAttributes blk.Body)) ∧
      (∀ blk ∈ blocks, blk.Type_ = "required_providers" →
        ∀ n ∈ mapKeys (extractAttributes blk.Body),
          (n, f) ∈ providerKeys (b0.Providers ++ (added ++ ext))) := by
  induction blocks generalizing added with
  | nil => exact ⟨[], by simp, by simpa using h, by simp, by simp⟩
  | cons blk rest ih =>
    by_cases hty : blk.Type_ = "required_providers"
    · obtain ⟨ext1, heq1, hm1, hn1, hc1⟩ :=
        foldl_addRequiredProvider_step f b0 (mapKeys (extractAttributes blk.Body)) added h
      obtain ⟨ext2, heq2, hm2, hn2, hc2⟩ := ih (added ++ ext1) hm1
      refine ⟨ext1 ++ ext2, ?_, ?_, ?_, ?_⟩
      · simp only [List.foldl_cons]
        rw [show extractRequiredBlock f { b0 with Providers := b0.Providers ++ added } blk =
            { b0 with Providers := b0.Providers ++ (added ++ ext1) } from by
          unfold extractRequiredBlock
          rw [if_pos hty]
          exact heq1]
        rw [heq2, List.append_assoc]
      · rw [← List.append_assoc]; exact hm2
      · intro p hp
        rcases List.mem_append.1 hp with hp | hp
        · exact ⟨blk, List.mem_cons_self _ _, hty, hn1 p hp⟩
        · obtain ⟨b', hb', hrest⟩ := hn2 p hp
          exact ⟨b', List.mem_cons_of_mem _ hb', hrest⟩
      · intro b' hb' hty' m hm
        have e : b0.Providers ++ (added ++ (ext1 ++ ext2)) =
            (b0.Providers ++ (added ++ ext1)) ++ ext2 := by simp
        rcases List.mem_cons.1 hb' with hb' | hb'
        · subst hb'
          rw [e, providerKeys_append]
          exact List.mem_append_left _ (hc1 m hm)
        · simpa [List.append_assoc] using hc2 b' hb' hty' m hm
    · obtain ⟨ext2, heq2, hm2, hn2, hc2⟩ := ih added h
      refine ⟨ext2, ?_, hm2, ?_, ?_⟩
      · simp only [List.foldl_cons]
        rw [show extractRequiredBlock f { b0 with Providers := b0.Providers ++ added } blk =
            { b0 with Providers := b0.Providers ++ added } from by
          unfold extractRequiredBlock
          rw [if_neg hty]]
        exact heq2
      · intro p hp
        obtain ⟨b', hb', hrest⟩ := hn2 p hp
        exact ⟨b', List.mem_cons_of_mem _ hb', hrest⟩
      · intro b' hb' hty' m hm
        rcases List.mem_cons.1 hb' with hb' | hb'
        · subst hb'; exact absurd hty' hty
        · exact hc2 b' hb' hty' m hm

/-- C5 (counterexample): for a `terraform` body whose matching reports an error,
`extractRequiredProviders` returns the breakdown unchanged, although the matched
`required_providers` block has the attribute name `aws`. -/
theorem requiredProviders_merge_counterexample :
    (terraformBodyWithError.PartialContent requiredProvidersSchema).1 = [requiredProvidersAws] ∧
      "aws" ∈ mapKeys (extractAttributes requiredProvidersAws.Body) ∧
      ("aws", "main.tf") ∉ providerKeys
        (extractRequiredProviders terraformBodyWithError "main.tf" emptyBreakdown).Providers :=
  ⟨rfl, by decide, by decide⟩

/-- C5 (amended): when the matching of the `terraform` body reports no error, after
`extractRequiredProviders` (1) the previous providers are still there, unchanged and
in the same order at the front, and nothing but `Providers` has changed; (2) for every
attribute name `n` in the extracted attribute mapping of a nested `required_providers`
block, `Providers` has an entry with name `n` and file `f`; (3) every appended entry
has only name and file set, stands for an attribute name of a nested
`required_providers` block, and had no entry with its name and file `f` beforehand;
no name is appended twice. -/
theorem requiredProviders_merge (body : Body) (f : String) (b : TerraformBreakdown)
    (hok : HasErrors (body.PartialContent requiredProvidersSchema).2 = false) :
    ∃ added : List Provider,
      extractRequiredProviders body f b = { b with Providers := b.Providers ++ added } ∧
      (∀ blk ∈ (body.PartialContent requiredProvidersSchema).1,
        blk.Type_ = "required_providers" →
          ∀ n ∈ mapKeys (extractAttributes blk.Body),
            ∃ p ∈ (extractRequiredProviders body f b).Providers, p.Name = n ∧ p.File = f) ∧
      (∀ p ∈ added, p = { Name := p.Name, Alias := "", File := f, Attributes := [] } ∧
        (¬ ∃ q ∈ b.Providers, q.Name = p.Name ∧ q.File = f) ∧
        ∃ blk ∈ (body.PartialContent requiredProvidersSchema).1,
          blk.Type_ = "required_providers" ∧ p.Name ∈ mapKeys (extractAttributes blk.Body)) ∧
      (added.map (fun p => p.Name)).Nodup := by
  have hinit : MergedOnly f b.Providers [] := ⟨by simp, by simp⟩
  obtain ⟨ext, heq, hm, hn, hc⟩ :=
    foldl_extractRequiredBlock_step f b (body.PartialContent requiredProvidersSchema).1 [] hinit
  simp only [List.append_nil, List.nil_append] at heq hm hc
  have hres : extractRequiredProviders body f b = { b with Providers := b.Providers ++ ext } := by
    unfold extractRequiredProviders
    simp only [hok, Bool.false_eq_true, if_false]
    exact heq
  refine ⟨ext, hres, ?_, ?_, hm.2⟩
  · intro blk hblk hty n hnk
    have := hc blk hblk hty n hnk
    rw [hres]
    obtain ⟨p, hp, hpk⟩ := List.mem_map.1 this
    exact ⟨p, hp, (Prod.mk.inj hpk).1, (Prod.mk.inj hpk).2⟩
  · intro p hp
    refine ⟨(hm.1 p hp).1, ?_, hn p hp⟩
    rintro ⟨q, hq, hqn, hqf⟩
    apply (hm.1 p hp).2
    exact List.mem_map.2 ⟨q, hq, by rw [hqn, hqf]⟩

/-- C5 (amended, witness): the body of `terraform { required_providers { aws = {...} } }`
merged into a breakdown that has `provider "aws"` for another file. -/
theorem requiredProviders_merge_witness :
    ∃ added : List Provider,
      extractRequiredProviders terraformBodyAws "main.tf" otherFileAws =
        { otherFileAws with Providers := otherFileAws.Providers ++ added } ∧
      (∀ blk ∈ (terraformBodyAws.PartialContent requiredProvidersSchema).1,
        blk.Type_ = "required_providers" →
          ∀ n ∈ mapKeys (extractAttributes blk.Body),
            ∃ p ∈ (extractRequiredProviders terraformBodyAws "main.tf" otherFileAws).Providers,
              p.Name = n ∧ p.File = "main.tf") ∧
      (∀ p ∈ added, p = { Name := p.Name, Alias := "", File := "main.tf", Attributes := [] } ∧
        (¬ ∃ q ∈ otherFileAws.Providers, q.Name = p.Name ∧ q.File = "main.tf") ∧
        ∃ blk ∈ (terraformBodyAws.PartialContent requiredProvidersSchema).1,
          blk.Type_ = "required_providers" ∧ p.Name ∈ mapKeys (extractAttributes blk.Body)) ∧
      (added.map (fun p => p.Name)).Nodup :=
  requiredProviders_merge terraformBodyAws "main.tf" otherFileAws (by decide)

/-! ## C6: the storage key of a value file -/

theorem HasSuffix_append (s t : String) : HasSuffix (s ++ t) t = true := by
  simp [HasSuffix, String.data_append]

theorem TrimSuffix_append (s t : String) : TrimSuffix (s ++ t) t = s := by
  unfold TrimSuffix
  rw [if_pos (HasSuffix_append s t)]
  simp [String.data_append]

theorem Base_of_no_separator (p : String) (hne : p.data ≠ []) (h : '/' ∉ p.data) :
    Base p = p := by
  unfold Base
  rw [if_neg hne]
  have hdrop : (p.data.reverse.dropWhile (fun c => c == '/')) = p.data.reverse := by
    cases hr : p.data.reverse with
    | nil => rfl
    | cons c rest =>
      have hc : c ∈ p.data := by
        rw [← List.mem_reverse, hr]; exact List.mem_cons_self _ _
      have hne' : c ≠ '/' := fun hq => h (hq ▸ hc)
      have hb : (c == '/') = false := by simp [hne']
      simp only [List.dropWhile, hb]
  have htake : (p.data.reverse.takeWhile (fun c => c != '/')) = p.data.reverse := by
    rw [List.takeWhile_eq_self_iff]
    intro c hc
    have hc' : c ∈ p.data := List.mem_reverse.1 hc
    have hne' : c ≠ '/' := fun hq => h (hq ▸ hc')
    simp [hne']
  simp only [hdrop, List.reverse_reverse, htake]
  rw [if_neg hne]

theorem Ext_append_tfvars (s : String) : Ext (s ++ ".tfvars") = ".tfvars" := by
  unfold Ext
  have : (s ++ ".tfvars").data.reverse =
      's' :: 'r' :: 'a' :: 'v' :: 'f' :: 't' :: '.' :: s.data.reverse := by
    simp [String.data_append]
  rw [this]
  simp [extScan]

theorem Ext_append_json (s : String) : Ext (s ++ ".json") = ".json" := by
  unfold Ext
  have : (s ++ ".json").data.reverse =
      'n' :: 'o' :: 's' :: 'j' :: '.' :: s.data.reverse := by
    simp [String.data_append]
  rw [this]
  simp [extScan]

theorem fallback_ne_empty (k : String) : (if k = "" then "terraform" else k) ≠ "" := by
  by_cases h : k = ""
  · rw [if_pos h]; decide
  · rw [if_neg h]; exact h

/-- C6: the storage key that `parseTfVarsFile` uses is the base name with its last
extension removed, then one trailing `.tfvars` removed if present, then `terraform` if
empty. For a non-empty stem `s` without path separator that does not end in `.tfvars`,
both `s.tfvars` and `s.tfvars.json` give the key `s`; `prod.tfvars` and
`prod.tfvars.json` give `prod`, `.tfvars` gives `terraform`; the key is never empty. -/
theorem tfVarsKey_derivation (s : String) (hne : s ≠ "")
    (hsuffix : HasSuffix s ".tfvars" = false) (hsep : '/' ∉ s.data) :
    tfVarsKey (s ++ ".tfvars") = s ∧ tfVarsKey (s ++ ".tfvars.json") = s ∧
      tfVarsKey "prod.tfvars" = "prod" ∧ tfVarsKey "prod.tfvars.json" = "prod" ∧
      tfVarsKey ".tfvars" = "terraform" ∧
      (∀ p, tfVarsKey p ≠ "") ∧
      (∀ p, tfVarsKey p =
        (let stem := TrimSuffix (Base p) (Ext (Base p))
         let key := if HasSuffix stem ".tfvars" then TrimSuffix stem ".tfvars" else stem
         if key = "" then "terraform" else key)) ∧
      (∀ parser p b, (parseTfVarsFile parser p b).1 = none →
        ∃ values, (parseTfVarsFile parser p b).2.TfVars =
          mapSet b.TfVars (tfVarsKey p) { File := p, Values := values }) := by
  have hdata : s.data ≠ [] := fun h => hne (String.ext h)
  have hbase1 : Base (s ++ ".tfvars") = s ++ ".tfvars" := by
    apply Base_of_no_separator
    · simp [String.data_append]
    · simp [String.data_append, hsep]
  have hbase2 : Base (s ++ ".tfvars" ++ ".json") = s ++ ".tfvars" ++ ".json" := by
    apply Base_of_no_separator
    · simp [String.data_append]
    · simp [String.data_append, hsep]
  have hassoc : s ++ ".tfvars.json" = s ++ ".tfvars" ++ ".json" := by
    rw [String.append_assoc]; rfl
  refine ⟨?_, ?_, by decide, by decide, by decide, ?_, fun p => rfl, ?_⟩
  · unfold tfVarsKey
    simp only [hbase1, Ext_append_tfvars, TrimSuffix_append, hsuffix, Bool.false_eq_true,
      if_false, hne]
  · unfold tfVarsKey
    rw [hassoc]
    simp only [hbase2, Ext_append_json, TrimSuffix_append, HasSuffix_append, if_true,
      hne, if_false]
  · intro p
    exact fallback_ne_empty _
  · intro parser p b hnone
    unfold parseTfVarsFile at hnone ⊢
    simp only at hnone ⊢
    split at hnone
    · simp at hnone
    · split at hnone
      · simp at hnone
      · rename_i h1 h2
        simp only [h1, h2, if_false]
        exact ⟨_, rfl⟩

/-- C6 (witness): the stem `prod`. -/
theorem tfVarsKey_derivation_witness :
    tfVarsKey ("prod" ++ ".tfvars") = "prod" ∧ tfVarsKey ("prod" ++ ".tfvars.json") = "prod" :=
  ⟨(tfVarsKey_derivation "prod" (by decide) (by decide) (by decide)).1,
    (tfVarsKey_derivation "prod" (by decide) (by decide) (by decide)).2.1⟩

/-! ## C7: failure of a value file is atomic -/

theorem mapSet_length {β : Type} (m : GoMap β) (k : String) (v : β) :
    (mapSet m k v).length = if k ∈ mapKeys m then m.length else m.length + 1 := by
  induction m with
  | nil => simp [mapSet, mapKeys]
  | cons e rest ih =>
    obtain ⟨k', v'⟩ := e
    by_cases h : k' = k
    · simp [mapSet, mapKeys, h]
    · have h' : ¬ k = k' := fun hq => h hq.symm
      simp only [mapSet, h, if_false, List.length_cons, ih, mapKeys, List.map_cons,
        List.mem_cons, h', false_or]
      split <;> rfl

theorem parseTfVarsFile_of_parse_error (parser : Parser) (p : String) (b : TerraformBreakdown)
    (h : HasErrors (parseValueFile parser p).2 = true) :
    parseTfVarsFile parser p b =
      (some (TfVarsError.parseError (parseValueFile parser p).2), b) := by
  unfold parseTfVarsFile
  simp only [h, if_true]

theorem parseTfVarsFile_of_attribute_error (parser : Parser) (p : String)
    (b : TerraformBreakdown) (h1 : HasErrors (parseValueFile parser p).2 = false)
    (h2 : HasErrors (parseValueFile parser p).1.Body.JustAttributes.2 = true) :
    parseTfVarsFile parser p b =
      (some (TfVarsError.attributeExtractionError
        (parseValueFile parser p).1.Body.JustAttributes.2), b) := by
  unfold parseTfVarsFile
  simp only [h1, h2, if_true, Bool.false_eq_true, if_false]

theorem parseTfVarsFile_of_no_error (parser : Parser) (p : String) (b : TerraformBreakdown)
    (h1 : HasErrors (parseValueFile parser p).2 = false)
    (h2 : HasErrors (parseValueFile parser p).1.Body.JustAttributes.2 = false) :
    parseTfVarsFile parser p b =
      (none, { b with
        TfVars := mapSet b.TfVars (tfVarsKey p)
          (TfVars.mk p (tfVarsValues (parseValueFile parser p).1.Body)) }) := by
  unfold parseTfVarsFile tfVarsValues
  simp only [h1, h2, Bool.false_eq_true, if_false]

theorem parseTfVarsFile_eq_none_iff (parser : Parser) (p : String) (b : TerraformBreakdown) :
    (parseTfVarsFile parser p b).1 = none ↔
      HasErrors (parseValueFile parser p).2 = false ∧
        HasErrors (parseValueFile parser p).1.Body.JustAttributes.2 = false := by
  cases h1 : HasErrors (parseValueFile parser p).2
  · cases h2 : HasErrors (parseValueFile parser p).1.Body.JustAttributes.2
    · rw [parseTfVarsFile_of_no_error parser p b h1 h2]; simp
    · rw [parseTfVarsFile_of_attribute_error parser p b h1 h2]; simp
  · rw [parseTfVarsFile_of_parse_error parser p b h1]; simp

/-- C7: `parseTfVarsFile` returns an error exactly when the parse step or the
top-level attribute enumeration reports error diagnostics, and then the breakdown is
exactly as it was; when neither reports errors it returns `nil`, stores the record of
this file under its key, and leaves the entries under all other keys and the four
sequences as they were. -/
theorem parseTfVarsFile_atomic (parser : Parser) (p : String) (b : TerraformBreakdown) :
    ((parseTfVarsFile parser p b).1 ≠ none ↔
        (HasErrors (parseValueFile parser p).2 = true ∨
          HasErrors (parseValueFile parser p).1.Body.JustAttributes.2 = true)) ∧
      ((parseTfVarsFile parser p b).1 ≠ none → (parseTfVarsFile parser p b).2 = b) ∧
      ((parseTfVarsFile parser p b).1 = none →
        mapGet (parseTfVarsFile parser p b).2.TfVars (tfVarsKey p) =
            some { File := p, Values := tfVarsValues (parseValueFile parser p).1.Body } ∧
          (∀ k, k ≠ tfVarsKey p →
            mapGet (parseTfVarsFile parser p b).2.TfVars k = mapGet b.TfVars k) ∧
          (parseTfVarsFile parser p b).2.TfVars.length =
            (if tfVarsKey p ∈ mapKeys b.TfVars then b.TfVars.length
              else b.TfVars.length + 1) ∧
          (parseTfVarsFile parser p b).2.Resources = b.Resources ∧
          (parseTfVarsFile parser p b).2.Modules = b.Modules ∧
          (parseTfVarsFile parser p b).2.Providers = b.Providers ∧
          (parseTfVarsFile parser p b).2.Variables = b.Variables) := by
  refine ⟨?_, ?_, ?_⟩
  · rw [Ne, parseTfVarsFile_eq_none_iff]
    cases HasErrors (parseValueFile parser p).2 <;>
      cases HasErrors (parseValueFile parser p).1.Body.JustAttributes.2 <;> simp
  · intro herr
    rw [Ne, parseTfVarsFile_eq_none_iff] at herr
    cases h1 : HasErrors (parseValueFile parser p).2
    · cases h2 : HasErrors (parseValueFile parser p).1.Body.JustAttributes.2
      · exact absurd ⟨h1, h2⟩ herr
      · rw [parseTfVarsFile_of_attribute_error parser p b h1 h2]
    · rw [parseTfVarsFile_of_parse_error parser p b h1]
  · intro hnone
    obtain ⟨h1, h2⟩ := (parseTfVarsFile_eq_none_iff parser p b).1 hnone
    rw [parseTfVarsFile_of_no_error parser p b h1 h2]
    refine ⟨mapGet_mapSet_self _ _ _, fun k hk => mapGet_mapSet_of_ne _ _ _ _ (Ne.symm hk),
      mapSet_length _ _ _, rfl, rfl, rfl, rfl⟩

/-! ## C8: a later value file with the same key overwrites the earlier one -/

theorem mapKeys_mapSet {β : Type} (m : GoMap β) (k : String) (v : β) :
    mapKeys (mapSet m k v) = if k ∈ mapKeys m then mapKeys m else mapKeys m ++ [k] := by
  induction m with
  | nil => simp [mapSet, mapKeys]
  | cons e rest ih =>
    obtain ⟨k', v'⟩ := e
    by_cases h : k' = k
    · simp [mapSet, mapKeys, h]
    · have h' : ¬ k = k' := fun hq => h hq.symm
      simp only [mapKeys] at ih
      simp only [mapSet, h, if_false, mapKeys, List.map_cons, ih, List.mem_cons, h', false_or]
      split <;> simp

theorem mapKeys_mapSet_nodup {β : Type} (m : GoMap β) (k : String) (v : β)
    (h : (mapKeys m).Nodup) : (mapKeys (mapSet m k v)).Nodup := by
  rw [mapKeys_mapSet]
  split
  · exact h
  · rename_i hk
    rw [List.nodup_append]
    refine ⟨h, by simp, ?_⟩
    intro a ha hb
    simp only [List.mem_singleton] at hb
    subst hb
    exact hk ha

theorem mem_mapKeys_mapSet {β : Type} (m : GoMap β) (k : String) (v : β) :
    k ∈ mapKeys (mapSet m k v) := by
  rw [mapKeys_mapSet]
  split
  · assumption
  · simp

/-- C8: when two value files whose names give the same key (such as `prod.tfvars` and
`prod.tfvars.json`) are parsed one after the other without error, the value-file
mapping holds exactly one entry under that key, with the file and the values of the
later file, and the entries under all other keys are as the first parse left them. -/
theorem tfvars_overwrite (parser : Parser) (p1 p2 : String) (b : TerraformBreakdown)
    (hkeys : (mapKeys b.TfVars).Nodup)
    (hsame : tfVarsKey p1 = tfVarsKey p2)
    (h1 : (parseTfVarsFile parser p1 b).1 = none)
    (h2 : (parseTfVarsFile parser p2 (parseTfVarsFile parser p1 b).2).1 = none) :
    (mapKeys (parseTfVarsFile parser p2 (parseTfVarsFile parser p1 b).2).2.TfVars).count
          (tfVarsKey p1) = 1 ∧
      mapGet (parseTfVarsFile parser p2 (parseTfVarsFile parser p1 b).2).2.TfVars
          (tfVarsKey p1) =
        some { File := p2, Values := tfVarsValues (parseValueFile parser p2).1.Body } ∧
      (∀ k, k ≠ tfVarsKey p1 →
        mapGet (parseTfVarsFile parser p2 (parseTfVarsFile parser p1 b).2).2.TfVars k =
          mapGet (parseTfVarsFile parser p1 b).2.TfVars k) ∧
      tfVarsKey "prod.tfvars" = tfVarsKey "prod.tfvars.json" := by
  obtain ⟨h1a, h1b⟩ := (parseTfVarsFile_eq_none_iff parser p1 b).1 h1
  obtain ⟨h2a, h2b⟩ := (parseTfVarsFile_eq_none_iff parser p2 _).1 h2
  rw [parseTfVarsFile_of_no_error parser p2 _ h2a h2b,
    parseTfVarsFile_of_no_error parser p1 b h1a h1b]
  simp only [hsame]
  refine ⟨?_, mapGet_mapSet_self _ _ _,
    fun k hk => mapGet_mapSet_of_ne _ _ _ _ (Ne.symm hk), by decide⟩
  apply List.count_eq_one_of_mem
  · exact mapKeys_mapSet_nodup _ _ _ (mapKeys_mapSet_nodup _ _ _ hkeys)
  · exact mem_mapKeys_mapSet _ _ _

/-- C8 (witness): `prod.tfvars` and then `prod.tfvars.json`, from the empty breakdown. -/
theorem tfvars_overwrite_witness :
    ((mapKeys (parseTfVarsFile eastWestParser "prod.tfvars.json"
          (parseTfVarsFile eastWestParser "prod.tfvars" emptyBreakdown).2).2.TfVars).count
          (tfVarsKey "prod.tfvars") = 1 ∧
      mapGet (parseTfVarsFile eastWestParser "prod.tfvars.json"
          (parseTfVarsFile eastWestParser "prod.tfvars" emptyBreakdown).2).2.TfVars
          (tfVarsKey "prod.tfvars") =
        some { File := "prod.tfvars.json",
               Values := tfVarsValues (parseValueFile eastWestParser "prod.tfvars.json").1.Body } ∧
      (∀ k, k ≠ tfVarsKey "prod.tfvars" →
        mapGet (parseTfVarsFile eastWestParser "prod.tfvars.json"
            (parseTfVarsFile eastWestParser "prod.tfvars" emptyBreakdown).2).2.TfVars k =
          mapGet (parseTfVarsFile eastWestParser "prod.tfvars" emptyBreakdown).2.TfVars k) ∧
      tfVarsKey "prod.tfvars" = tfVarsKey "prod.tfvars.json") ∧
    (parseTfVarsFile eastWestParser "prod.tfvars.json"
        (parseTfVarsFile eastWestParser "prod.tfvars" emptyBreakdown).2).2.TfVars =
      [("prod", { File := "prod.tfvars.json", Values := [("region", "eu-west-1")] })] :=
  ⟨tfvars_overwrite eastWestParser "prod.tfvars" "prod.tfvars.json" emptyBreakdown
      (by decide) (by decide) (by decide) (by decide),
    by decide⟩

/-! ## C9 and C10: formatting of lists and maps -/

theorem Join_cons_append (x y sep : String) (rest : List String) :
    Join ((x ++ y) :: rest) sep = x ++ Join (y :: rest) sep := by
  cases rest with
  | nil => rfl
  | cons c r => simp [Join, String.append_assoc]

theorem intercalate_go_eq_Join (sep : String) (rest : List String) (a : String) :
    String.intercalate.go a sep rest = Join (a :: rest) sep := by
  induction rest generalizing a with
  | nil => rfl
  | cons b r ih =>
    rw [String.intercalate.go, ih, Join_cons_append]
    rfl

theorem Join_eq_intercalate (l : List String) (sep : String) :
    Join l sep = sep.intercalate l := by
  cases l with
  | nil => rfl
  | cons a rest => rw [String.intercalate, intercalate_go_eq_Join]

theorem formatItems_eq_map (elems : List CtyValue) :
    formatItems elems = elems.map formatCtyValue := by
  induction elems with
  | nil => simp [formatItems]
  | cons v rest ih => simp [formatItems, ih]

theorem formatPairs_eq_map (entries : List (CtyValue × CtyValue)) :
    formatPairs entries =
      entries.map (fun kv => formatCtyValue kv.1 ++ ": " ++ formatCtyValue kv.2) := by
  induction entries with
  | nil => simp [formatPairs]
  | cons kv rest ih =>
    obtain ⟨k, v⟩ := kv
    simp [formatPairs, ih]

/-- C9: for a list or tuple value with elements `v1..vn`, `formatCtyValue` returns `[`
followed by the formatted elements joined by `, ` followed by `]`; the empty list gives
`[]` and the tuple `[1, "a", true]` gives `[1, a, true]`. The function is total. -/
theorem formatCtyValue_list (elems : List CtyValue) :
    formatCtyValue (CtyValue.list elems) =
        "[" ++ ", ".intercalate (elems.map formatCtyValue) ++ "]" ∧
      formatCtyValue (CtyValue.list []) = "[]" ∧
      formatCtyValue (CtyValue.list
          [CtyValue.number (BigFloat.finite 1) "1", CtyValue.string "a", CtyValue.bool true]) =
        "[1, a, true]" := by
  refine ⟨?_, by decide, by decide⟩
  rw [formatCtyValue, formatItems_eq_map, Join_eq_intercalate]

/-- C10: for a map or object value with entries `(k1,v1)..(kn,vn)` in iteration order,
`formatCtyValue` returns an opening brace, the strings `formatCtyValue ki`, `: `,
`formatCtyValue vi` joined by `, `, and a closing brace; the empty map gives the two
braces. Keys are formatted by the same function as values. -/
theorem formatCtyValue_map (entries : List (CtyValue × CtyValue)) :
    formatCtyValue (CtyValue.map entries) =
        "\x7b" ++ ", ".intercalate
          (entries.map (fun kv => formatCtyValue kv.1 ++ ": " ++ formatCtyValue kv.2)) ++ "\x7d" ∧
      formatCtyValue (CtyValue.map []) = "\x7b\x7d" ∧
      formatCtyValue (CtyValue.map
          [(CtyValue.string "source", CtyValue.string "hashicorp/aws"),
           (CtyValue.number (BigFloat.finite 2) "2", CtyValue.list [CtyValue.bool false])]) =
        "\x7bsource: hashicorp/aws, 2: [false]\x7d" := by
  refine ⟨?_, by decide, by decide⟩
  rw [formatCtyValue, formatPairs_eq_map, Join_eq_intercalate]

/-! ## C11: integer numbers -/

theorem digitChar_isDigit : ∀ d, d < 10 → (Nat.digitChar d).isDigit = true := by
  decide

theorem toDigitsCore_isDigit (fuel n : Nat) (ds : List Char)
    (h : ∀ c ∈ ds, c.isDigit = true) :
    ∀ c ∈ Nat.toDigitsCore 10 fuel n ds, c.isDigit = true := by
  induction fuel generalizing n ds with
  | zero => simpa [Nat.toDigitsCore] using h
  | succ fuel ih =>
    have hd : (Nat.digitChar (n % 10)).isDigit = true :=
      digitChar_isDigit _ (Nat.mod_lt _ (by decide))
    have hcons : ∀ c ∈ Nat.digitChar (n % 10) :: ds, c.isDigit = true := by
      intro c hc
      rcases List.mem_cons.1 hc with hc | hc
      · rw [hc]; exact hd
      · exact h c hc
    simp only [Nat.toDigitsCore]
    split
    · exact hcons
    · exact ih _ _ hcons

theorem toDigitsCore_length (fuel n : Nat) (ds : List Char) :
    ds.length ≤ (Nat.toDigitsCore 10 fuel n ds).length := by
  induction fuel generalizing n ds with
  | zero => simp [Nat.toDigitsCore]
  | succ fuel ih =>
    simp only [Nat.toDigitsCore]
    split
    · simp
    · exact Nat.le_trans (by simp) (ih _ _)

theorem repr_isDigit (n : Nat) : ∀ c ∈ (Nat.repr n).data, c.isDigit = true := by
  intro c hc
  exact toDigitsCore_isDigit (n + 1) n [] (by simp) c hc

theorem repr_ne_empty (n : Nat) : Nat.repr n ≠ "" := by
  intro h
  have hlen : (Nat.repr n).data.length = 0 := by rw [h]; rfl
  have hpos : 0 < (Nat.toDigitsCore 10 (n + 1) n []).length := by
    simp only [Nat.toDigitsCore]
    split
    · simp
    · exact Nat.lt_of_lt_of_le (by simp) (toDigitsCore_length _ _ _)
  have : (Nat.repr n).data = Nat.toDigitsCore 10 (n + 1) n [] := rfl
  rw [this] at hlen
  omega

theorem int_toString (n : Int) :
    toString n = if n < 0 then "-" ++ Nat.repr n.natAbs else Nat.repr n.natAbs := by
  cases n with
  | ofNat m =>
    have : ¬ (Int.ofNat m < 0) := by simp
    rw [if_neg this]
    rfl
  | negSucc m =>
    have : Int.negSucc m < 0 := Int.negSucc_lt_zero m
    rw [if_pos this]
    rfl

theorem Int64_exact_of_int (n : Int) (hlo : MinInt64 ≤ n) (hhi : n ≤ MaxInt64) :
    (BigFloat.finite (n : ℚ)).Int64 = (n, Accuracy.Exact) := by
  unfold MinInt64 at hlo
  unfold MaxInt64 at hhi
  simp only [BigFloat.Int64, Rat.num_intCast, Rat.den_intCast, Nat.mul_one]
  by_cases h : n.natAbs < 2 ^ 63
  · rw [if_pos h]
    simp
  · have hn : n = -(2 ^ 63) := by omega
    have hneg : n < 0 := by omega
    simp [h, hneg, MinInt64, hn]

theorem Int64_not_exact (q : ℚ) (h : ¬ (q.den = 1 ∧ MinInt64 ≤ q.num ∧ q.num ≤ MaxInt64)) :
    (BigFloat.finite q).Int64.2 ≠ Accuracy.Exact := by
  unfold MinInt64 MaxInt64 at h
  simp only [BigFloat.Int64]
  by_cases hd : q.den = 1
  · have hr : ¬ (-(2 ^ 63) ≤ q.num ∧ q.num ≤ 2 ^ 63 - 1) := fun hh => h ⟨hd, hh⟩
    have h1 : ¬ q.num.natAbs < 2 ^ 63 * q.den := by rw [hd]; omega
    rw [if_neg h1]
    by_cases hneg : q.num < 0
    · have hne : ¬ (q.den = 1 ∧ q.num = MinInt64) := by
        unfold MinInt64; omega
      simp [hneg, hne]
    · simp [hneg]
  · split
    · simp only [hd, if_false]
      split <;> decide
    · split
      · have hne : ¬ (q.den = 1 ∧ q.num = MinInt64) := fun hh => hd hh.1
        simp only [hne, if_false]
        decide
      · decide

/-- C11: a number with zero fractional part in the signed 64-bit range is formatted as
its plain decimal integer: an optional leading `-` followed by the decimal digits of the
absolute value, so the number 3.0 gives `3`; a number with a non-zero fractional part or
outside the range, and an infinity, do not take the integer branch and are formatted
by the `%g` rendering. -/
theorem formatCtyValue_integer (n : Int) (g : String)
    (hlo : MinInt64 ≤ n) (hhi : n ≤ MaxInt64) :
    formatCtyValue (CtyValue.number (BigFloat.finite (n : ℚ)) g) =
        (if n < 0 then "-" ++ Nat.repr n.natAbs else Nat.repr n.natAbs) ∧
      (∀ c ∈ (Nat.repr n.natAbs).data, c.isDigit = true) ∧
      Nat.repr n.natAbs ≠ "" ∧
      formatCtyValue (CtyValue.number (BigFloat.finite 3) g) = "3" ∧
      (∀ q : ℚ, ¬ (q.den = 1 ∧ MinInt64 ≤ q.num ∧ q.num ≤ MaxInt64) →
        (BigFloat.finite q).Int64.2 ≠ Accuracy.Exact ∧
          formatCtyValue (CtyValue.number (BigFloat.finite q) g) = g) ∧
      (∀ neg, (BigFloat.inf neg).Int64.2 ≠ Accuracy.Exact ∧
        formatCtyValue (CtyValue.number (BigFloat.inf neg) g) = g) := by
  refine ⟨?_, repr_isDigit _, repr_ne_empty _, ?_, ?_, ?_⟩
  · rw [formatCtyValue, Int64_exact_of_int n hlo hhi, ← int_toString]
    simp
  · have h3 := Int64_exact_of_int 3 (by decide) (by decide)
    rw [formatCtyValue]
    simp only [Int.cast_ofNat] at h3
    rw [h3, if_pos rfl]
    rfl
  · intro q hq
    refine ⟨Int64_not_exact q hq, ?_⟩
    rw [formatCtyValue, if_neg (Int64_not_exact q hq)]
  · intro neg
    have hne : (BigFloat.inf neg).Int64.2 ≠ Accuracy.Exact := by
      cases neg <;> decide
    refine ⟨hne, ?_⟩
    rw [formatCtyValue, if_neg hne]

/-- C11 (witness): the numbers -42 and, as values off the integer branch, 3.5 and 2^63. -/
theorem formatCtyValue_integer_witness :
    formatCtyValue (CtyValue.number (BigFloat.finite ((-42 : Int) : ℚ)) "-42") = "-42" ∧
      formatCtyValue (CtyValue.number (BigFloat.finite (7 / 2)) "3.5") = "3.5" ∧
      formatCtyValue (CtyValue.number (BigFloat.finite (2 ^ 63)) "9.223372036854776e+18") =
        "9.223372036854776e+18" :=
  ⟨(formatCtyValue_integer (-42) "-42" (by decide) (by decide)).1.trans (by decide),
    ((formatCtyValue_integer (-42) "3.5" (by decide) (by decide)).2.2.2.2.1 (7 / 2)
      (by norm_num [MinInt64, MaxInt64])).2,
    ((formatCtyValue_integer (-42) "9.223372036854776e+18" (by decide) (by decide)).2.2.2.2.1
      (2 ^ 63) (by norm_num [MinInt64, MaxInt64])).2⟩

/-! ## C12: a matching error drops the whole body -/

/-- C12 (counterexample): the matching of `partlyMatchedFile` reports an error; two
blocks did match and the loop would record them, but `extractFromFile` adds nothing. -/
theorem partial_results_counterexample :
    (partlyMatchedFile.PartialContent fileSchema).1 = [instanceX, moduleNet] ∧
      HasErrors (partlyMatchedFile.PartialContent fileSchema).2 = true ∧
      ((partlyMatchedFile.PartialContent fileSchema).1.foldl (extractBlock "main.tf")
          emptyBreakdown).Resources =
        [{ Type_ := "aws_instance", Name := "x", File := "main.tf" }] ∧
      extractFromFile partlyMatchedFile "main.tf" emptyBreakdown = emptyBreakdown :=
  ⟨rfl, by decide, by decide, by decide⟩

/-- C12 (amended): `extractFromFile` returns a breakdown for every input, and when the
matching of the body reports an error that breakdown is the one it was given: no record
is added, also not for the blocks that did match. -/
theorem extractFromFile_of_matching_error (body : Body) (f : String)
    (b : TerraformBreakdown)
    (herr : HasErrors (body.PartialContent fileSchema).2 = true) :
    extractFromFile body f b = b := by
  unfold extractFromFile
  simp only [herr, if_true]

/-- C12 (amended, witness): the file `partlyMatchedFile`. -/
theorem extractFromFile_of_matching_error_witness :
    extractFromFile partlyMatchedFile "main.tf" otherFileAws = otherFileAws :=
  extractFromFile_of_matching_error partlyMatchedFile "main.tf" otherFileAws (by decide)

/-! ## C15: blocks with too few labels -/

theorem extractBlock_of_tooFewLabels (f : String) (b : TerraformBreakdown) (block : Block)
    (h : tooFewLabels block = true) : extractBlock f b block = b := by
  unfold tooFewLabels at h
  simp only [Bool.or_eq_true, Bool.and_eq_true, beq_iff_eq, decide_eq_true_eq,
    List.isEmpty_iff] at h
  unfold extractBlock
  rcases h with ⟨hty, hlen⟩ | ⟨hty, hnil⟩
  · rw [if_pos hty]
    rcases hl : block.Labels with _ | ⟨l0, _ | ⟨l1, ls⟩⟩
    · rfl
    · rfl
    · rw [hl] at hlen
      simp only [List.length_cons] at hlen
      omega
  · rw [hnil]
    rcases hty with (hty | hty) | hty <;> simp [hty]

theorem matchesSchema_of_tooFewLabels (block : Block) (h : tooFewLabels block = true) :
    matchesSchema fileSchema block = false ∧
      ∃ d, labelDiagnostic fileSchema block = some d ∧
        d.Severity = DiagnosticSeverity.DiagError := by
  unfold tooFewLabels at h
  simp only [Bool.or_eq_true, Bool.and_eq_true, beq_iff_eq, decide_eq_true_eq,
    List.isEmpty_iff] at h
  have hres : fileSchema.header "resource" =
      some { Type_ := "resource", LabelNames := ["type", "name"] } := rfl
  have hmod : fileSchema.header "module" =
      some { Type_ := "module", LabelNames := ["name"] } := rfl
  have hpro : fileSchema.header "provider" =
      some { Type_ := "provider", LabelNames := ["name"] } := rfl
  have hvar : fileSchema.header "variable" =
      some { Type_ := "variable", LabelNames := ["name"] } := rfl
  unfold matchesSchema labelDiagnostic
  rcases h with ⟨hty, hlen⟩ | ⟨hty, hnil⟩
  · rw [hty, hres]
    simp only [List.length_cons, List.length_nil]
    refine ⟨by simp; omega, ?_⟩
    rw [if_neg (by omega), if_pos (by omega)]
    exact ⟨_, rfl, rfl⟩
  · rcases hty with (hty | hty) | hty
    · rw [hty, hmod, hnil]
      exact ⟨rfl, _, rfl, rfl⟩
    · rw [hty, hpro, hnil]
      exact ⟨rfl, _, rfl, rfl⟩
    · rw [hty, hvar, hnil]
      exact ⟨rfl, _, rfl, rfl⟩

/-- C15 (counterexample): the file with `resource "aws_instance" "x"`, the one-label
block `resource "aws_instance"` and `module "net"` gives no record at all, whereas the
same file without the one-label block gives a resource and a module: removing the
block changes the breakdown. -/
theorem tooFewLabels_counterexample :
    tooFewLabels resourceOneLabel = true ∧
      extractFromFile oneLabelFile "main.tf" emptyBreakdown = emptyBreakdown ∧
      extractFromFile oneLabelRemovedFile "main.tf" emptyBreakdown =
        { emptyBreakdown with
          Resources := [{ Type_ := "aws_instance", Name := "x", File := "main.tf" }],
          Modules := [{ Name := "net", Source := "./net", File := "main.tf",
                        Attributes := [("source", "./net")] }] } ∧
      extractFromFile oneLabelFile "main.tf" emptyBreakdown ≠
        extractFromFile oneLabelRemovedFile "main.tf" emptyBreakdown := by
  decide

/-- C15 (amended): a `resource` block with fewer than two labels, and a `module`,
`provider` or `variable` block without a label, contributes no record: it is not among
the matched blocks, the matching reports an error for it, and `extractFromFile` returns
the breakdown as it was, so that the other blocks of the body contribute no record
either; the loop of `extractFromFile` itself leaves the breakdown as it was for such a
block. -/
theorem tooFewLabels_drops_body (attrs : Attributes) (attrDiags : Diagnostics)
    (blocks : List Block) (contentDiags : Diagnostics) (f : String)
    (b : TerraformBreakdown) (block : Block)
    (hmem : block ∈ blocks) (h : tooFewLabels block = true) :
    block ∉ ((Body.mk attrs attrDiags blocks contentDiags).PartialContent fileSchema).1 ∧
      HasErrors ((Body.mk attrs attrDiags blocks contentDiags).PartialContent fileSchema).2 =
        true ∧
      extractFromFile (Body.mk attrs attrDiags blocks contentDiags) f b = b ∧
      extractBlock f b block = b := by
  obtain ⟨hmatch, d, hd, hsev⟩ := matchesSchema_of_tooFewLabels block h
  have herr : HasErrors
      ((Body.mk attrs attrDiags blocks contentDiags).PartialContent fileSchema).2 = true := by
    simp only [Body.PartialContent, HasErrors, List.any_append, Bool.or_eq_true,
      List.any_eq_true, List.mem_filterMap, beq_iff_eq]
    exact Or.inl ⟨d, ⟨block, hmem, hd⟩, hsev⟩
  refine ⟨?_, herr, ?_, extractBlock_of_tooFewLabels f b block h⟩
  · simp only [Body.PartialContent, List.mem_filter, not_and]
    intro _
    rw [hmatch]
    exact Bool.false_ne_true
  · unfold extractFromFile
    simp only [herr, if_true]

/-- C15 (amended, witness): the file `oneLabelFile`. -/
theorem tooFewLabels_drops_body_witness :
    resourceOneLabel ∉ (oneLabelFile.PartialContent fileSchema).1 ∧
      HasErrors (oneLabelFile.PartialContent fileSchema).2 = true ∧
      extractFromFile oneLabelFile "main.tf" otherFileAws = otherFileAws ∧
      extractBlock "main.tf" otherFileAws resourceOneLabel = otherFileAws :=
  tooFewLabels_drops_body [] [] [instanceX, resourceOneLabel, moduleNet] [] "main.tf"
    otherFileAws resourceOneLabel (List.mem_cons_of_mem _ (List.mem_cons_self _ _))
    (by decide)

/-! ## C17: failure of the attribute enumeration -/

/-- C17: when the attribute enumeration of a body reports an error, `extractAttributes`
returns the empty mapping, whatever attributes came with the error. -/
theorem extractAttributes_of_enumeration_error (body : Body)
    (herr : HasErrors body.JustAttributes.2 = true) :
    extractAttributes body = [] := by
  unfold extractAttributes
  simp only [herr, if_true]

/-- C17 (witness): the body `attributesWithError`, whose enumeration returns `a = 1`
next to the error. -/
theorem extractAttributes_of_enumeration_error_witness :
    attributesWithError.JustAttributes.1.length = 1 ∧
      extractAttributes attributesWithError = [] :=
  ⟨rfl, extractAttributes_of_enumeration_error attributesWithError (by decide)⟩

/-! ## C18: convenience fields -/

/-- C18: for a `module` block with at least one label the appended module has the
attribute mapping `extractAttributes` of the block body, unchanged, and its `Source` is
the `source` entry of that mapping when present and empty otherwise; for a `provider`
block the same holds of `Alias` and the `alias` entry. -/
theorem convenience_fields (f : String) (b : TerraformBreakdown) (block : Block)
    (label0 : String) (labels : List String) (hl : block.Labels = label0 :: labels) :
    (block.Type_ = "module" →
        extractBlock f b block =
          { b with
            Modules := b.Modules ++
              [{ Name := label0,
                 Source := (mapGet (extractAttributes block.Body) "source").getD "",
                 File := f,
                 Attributes := extractAttributes block.Body }] }) ∧
      (block.Type_ = "provider" →
        extractBlock f b block =
          { b with
            Providers := b.Providers ++
              [{ Name := label0,
                 Alias := (mapGet (extractAttributes block.Body) "alias").getD "",
                 File := f,
                 Attributes := extractAttributes block.Body }] }) := by
  constructor
  · intro hty
    unfold extractBlock
    simp only [hty, hl, String.reduceEq, if_true, if_false, buildModule]
    cases mapGet (extractAttributes block.Body) "source" <;> rfl
  · intro hty
    unfold extractBlock
    simp only [hty, hl, String.reduceEq, if_true, if_false, buildProvider]
    cases mapGet (extractAttributes block.Body) "alias" <;> rfl

/-- C18 (witness): `module "net" { source = "./net" }` and
`provider "aws" { alias = "west" }`. -/
theorem convenience_fields_witness :
    extractBlock "main.tf" emptyBreakdown moduleNet =
        { emptyBreakdown with
          Modules := [{ Name := "net", Source := "./net", File := "main.tf",
                        Attributes := [("source", "./net")] }] } ∧
      extractBlock "main.tf" emptyBreakdown providerAwsWest =
        { emptyBreakdown with
          Providers := [{ Name := "aws", Alias := "west", File := "main.tf",
                          Attributes := [("alias", "west")] }] } :=
  ⟨((convenience_fields "main.tf" emptyBreakdown moduleNet "net" [] rfl).1 rfl).trans
      (by decide),
    ((convenience_fields "main.tf" emptyBreakdown providerAwsWest "aws" [] rfl).2 rfl).trans
      (by decide)⟩

/-! ## C16: the values of a value file -/

theorem tfVarsValue_get_self (acc : GoMap String) (n : String) (attr : Attribute) :
    mapGet (tfVarsValue acc (n, attr)) n =
      if HasErrors attr.Expr.Value.2 = false then some (formatCtyValue attr.Expr.Value.1)
      else mapGet acc n := by
  unfold tfVarsValue
  by_cases h1 : HasErrors attr.Expr.Value.2 = true
  · simp [h1]
  · simp only [Bool.not_eq_true] at h1
    simp [h1, mapGet_mapSet_self]

theorem tfVarsValue_get_of_ne (acc : GoMap String) (k n : String) (attr : Attribute)
    (h : k ≠ n) : mapGet (tfVarsValue acc (k, attr)) n = mapGet acc n := by
  unfold tfVarsValue
  simp only
  split
  · exact mapGet_mapSet_of_ne _ _ _ _ h
  · rfl

theorem foldl_tfVarsValue_get_of_not_mem (l : Attributes) (acc : GoMap String) (n : String)
    (h : n ∉ mapKeys l) : mapGet (l.foldl tfVarsValue acc) n = mapGet acc n := by
  induction l generalizing acc with
  | nil => rfl
  | cons e rest ih =>
    obtain ⟨k, attr⟩ := e
    simp only [mapKeys, List.map_cons, List.mem_cons, not_or] at h
    simp only [List.foldl_cons]
    rw [ih _ h.2]
    exact tfVarsValue_get_of_ne acc k n attr (fun hk => h.1 hk.symm)

theorem foldl_tfVarsValue_get_of_mem (l : Attributes) (acc : GoMap String) (n : String)
    (attr : Attribute) (hnodup : (mapKeys l).Nodup) (hmem : (n, attr) ∈ l) :
    mapGet (l.foldl tfVarsValue acc) n =
      if HasErrors attr.Expr.Value.2 = false then some (formatCtyValue attr.Expr.Value.1)
      else mapGet acc n := by
  induction l generalizing acc with
  | nil => simp at hmem
  | cons e rest ih =>
    obtain ⟨k, a⟩ := e
    simp only [mapKeys, List.map_cons, List.nodup_cons] at hnodup
    simp only [List.foldl_cons]
    rcases List.mem_cons.1 hmem with heq | hrest
    · obtain ⟨hk, ha⟩ := Prod.mk.inj heq
      subst hk; subst ha
      rw [foldl_tfVarsValue_get_of_not_mem rest _ n hnodup.1]
      exact tfVarsValue_get_self acc n attr
    · have hne : k ≠ n := by
        intro hk
        subst hk
        exact hnodup.1 (List.mem_map.2 ⟨(k, attr), hrest, rfl⟩)
      rw [ih _ hnodup.2 hrest, tfVarsValue_get_of_ne acc k n a hne]

/-- C16: when `parseTfVarsFile` succeeds, the values it stores for the file hold a name
`n` with value `s` exactly when the file has a top-level attribute `n` whose expression
evaluates without error under the empty context to a value formatted as `s`; an
attribute with an empty formatted value, such as `x = ""`, is kept with the value `""`,
whereas `extractAttributes` drops it. -/
theorem tfVars_values (parser : Parser) (p : String) (b : TerraformBreakdown)
    (hnone : (parseTfVarsFile parser p b).1 = none)
    (hkeys : (mapKeys (parseValueFile parser p).1.Body.JustAttributes.1).Nodup) :
    (∃ record, mapGet (parseTfVarsFile parser p b).2.TfVars (tfVarsKey p) = some record ∧
        record.File = p ∧
        ∀ n s, mapGet record.Values n = some s ↔
          ∃ attr, (n, attr) ∈ (parseValueFile parser p).1.Body.JustAttributes.1 ∧
            HasErrors attr.Expr.Value.2 = false ∧ formatCtyValue attr.Expr.Value.1 = s) ∧
      (parseTfVarsFile emptyStringParser "prod.tfvars" emptyBreakdown).2.TfVars =
        [("prod", { File := "prod.tfvars", Values := [("x", "")] })] ∧
      extractAttributes emptyStringBody = [] := by
  obtain ⟨h1, h2⟩ := (parseTfVarsFile_eq_none_iff parser p b).1 hnone
  refine ⟨?_, by decide, by decide⟩
  rw [parseTfVarsFile_of_no_error parser p b h1 h2]
  refine ⟨_, mapGet_mapSet_self _ _ _, rfl, ?_⟩
  intro n s
  simp only [tfVarsValues]
  constructor
  · intro hget
    by_cases hmem : n ∈ mapKeys (parseValueFile parser p).1.Body.JustAttributes.1
    · obtain ⟨⟨k, attr⟩, hin, hk⟩ := List.mem_map.1 hmem
      simp only at hk
      subst hk
      rw [foldl_tfVarsValue_get_of_mem _ _ _ attr hkeys hin] at hget
      split at hget
      · rename_i hgood
        exact ⟨attr, hin, hgood, Option.some.inj hget⟩
      · simp [mapGet] at hget
    · rw [foldl_tfVarsValue_get_of_not_mem _ _ _ hmem] at hget
      simp [mapGet] at hget
  · rintro ⟨attr, hin, hval, hfmt⟩
    rw [foldl_tfVarsValue_get_of_mem _ _ _ attr hkeys hin, if_pos hval, hfmt]

/-- C16 (witness): the file `prod.tfvars` with the single attribute `x = ""`. -/
theorem tfVars_values_witness :
    (∃ record, mapGet (parseTfVarsFile emptyStringParser "prod.tfvars" emptyBreakdown).2.TfVars
          (tfVarsKey "prod.tfvars") = some record ∧
        record.File = "prod.tfvars" ∧
        ∀ n s, mapGet record.Values n = some s ↔
          ∃ attr, (n, attr) ∈
              (parseValueFile emptyStringParser "prod.tfvars").1.Body.JustAttributes.1 ∧
            HasErrors attr.Expr.Value.2 = false ∧ formatCtyValue attr.Expr.Value.1 = s) ∧
      (parseTfVarsFile emptyStringParser "prod.tfvars" emptyBreakdown).2.TfVars =
        [("prod", { File := "prod.tfvars", Values := [("x", "")] })] ∧
      extractAttributes emptyStringBody = [] :=
  tfVars_values emptyStringParser "prod.tfvars" emptyBreakdown (by decide) (by decide)

/-! ## C19: the empty output -/

theorem append_ne_empty_of_left (s t : String) (h : s ≠ "") : s ++ t ≠ "" := by
  intro hst
  apply h
  have hlen : (s ++ t).length = 0 := by rw [hst]; rfl
  rw [String.length_append] at hlen
  have hs : s.length = 0 := by omega
  exact String.ext (List.length_eq_zero.1 hs)

theorem int_toString_ne_empty (n : Int) : toString n ≠ "" := by
  rw [int_toString]
  split
  · exact append_ne_empty_of_left _ _ (by decide)
  · exact repr_ne_empty _

theorem formatCtyValue_eq_empty_iff (v : CtyValue) (hshape : literalShape v = true) :
    formatCtyValue v = "" ↔ v = CtyValue.string "" := by
  cases v with
  | null => simp [formatCtyValue]
  | string s => simp [formatCtyValue]
  | number bf g =>
    have hg : g ≠ "" := by simpa [literalShape] using hshape
    simp only [formatCtyValue, reduceCtorEq, iff_false]
    split
    · exact int_toString_ne_empty _
    · exact hg
  | bool b => cases b <;> simp [formatCtyValue]
  | list elems =>
    simp only [formatCtyValue, reduceCtorEq, iff_false]
    rw [String.append_assoc]
    exact append_ne_empty_of_left _ _ (by decide)
  | map entries =>
    simp only [formatCtyValue, reduceCtorEq, iff_false]
    rw [String.append_assoc]
    exact append_ne_empty_of_left _ _ (by decide)
  | other r => simp [literalShape] at hshape

/-- C19: for a value of one of the shapes null, string, number, boolean, list or tuple,
map or object, `formatCtyValue` returns the empty string if and only if the value is
the string with empty content; so, when the attribute enumeration succeeds, an attribute
that evaluates without error to such a value is absent from the result of
`extractAttributes` if and only if its value is the empty string. -/
theorem empty_output_iff_empty_string (v : CtyValue) (hshape : literalShape v = true) :
    (formatCtyValue v = "" ↔ v = CtyValue.string "") ∧
      (∀ body n attr, HasErrors body.JustAttributes.2 = false →
        (mapKeys body.JustAttributes.1).Nodup →
        (n, attr) ∈ body.JustAttributes.1 →
        attr.Expr.Value.1 = v → HasErrors attr.Expr.Value.2 = false →
          (mapGet (extractAttributes body) n = none ↔ v = CtyValue.string "")) := by
  refine ⟨formatCtyValue_eq_empty_iff v hshape, ?_⟩
  intro body n attr hok hkeys hin hv hval
  have hdef : extractAttributes body = body.JustAttributes.1.foldl extractAttribute [] := by
    unfold extractAttributes
    simp [hok]
  rw [hdef, foldl_extractAttribute_get_of_mem _ _ _ attr hkeys hin, hv,
    ← formatCtyValue_eq_empty_iff v hshape]
  by_cases hf : formatCtyValue v = ""
  · simp [hf, mapGet]
  · simp [hf, hval]

/-- C19 (witness): the empty string and the empty list. -/
theorem empty_output_iff_empty_string_witness :
    formatCtyValue (CtyValue.string "") = "" ∧ formatCtyValue (CtyValue.list []) ≠ "" ∧
      mapGet (extractAttributes emptyStringBody) "x" = none :=
  ⟨((empty_output_iff_empty_string (CtyValue.string "") rfl).1).2 rfl,
    (fun h => CtyValue.noConfusion
      (((empty_output_iff_empty_string (CtyValue.list []) rfl).1).1 h)),
    ((empty_output_iff_empty_string (CtyValue.string "") rfl).2 emptyStringBody "x"
      { Name := "x", Expr := Expression.literal (CtyValue.string "") }
      (by decide) (by decide) (List.mem_singleton.2 rfl) rfl (by decide)).2 rfl⟩

/-! ## C13: the merge does not de-duplicate across files -/

theorem mem_mapKeys_extractAttribute (acc : GoMap String) (k n : String) (attr : Attribute) :
    n ∈ mapKeys (extractAttribute acc (k, attr)) ↔
      n ∈ mapKeys acc ∨
        (n = k ∧ HasErrors attr.Expr.Value.2 = false ∧ formatCtyValue attr.Expr.Value.1 ≠ "") := by
  unfold extractAttribute
  by_cases h1 : HasErrors attr.Expr.Value.2 = true
  · simp [h1]
  · simp only [Bool.not_eq_true] at h1
    by_cases h2 : formatCtyValue attr.Expr.Value.1 = ""
    · simp [h1, h2]
    · simp only [h1, h2, Bool.not_false, if_true, bne_iff_ne, ne_eq, not_false_eq_true,
        and_self, and_true, mapKeys_mapSet]
      split
      · rename_i hk
        constructor
        · intro h; exact Or.inl h
        · rintro (h | h)
          · exact h
          · rw [h]; exact hk
      · simp

theorem mem_mapKeys_foldl_extractAttribute (l : Attributes) (acc : GoMap String) (n : String) :
    n ∈ mapKeys (l.foldl extractAttribute acc) ↔
      n ∈ mapKeys acc ∨
        ∃ attr, (n, attr) ∈ l ∧ HasErrors attr.Expr.Value.2 = false ∧
          formatCtyValue attr.Expr.Value.1 ≠ "" := by
  induction l generalizing acc with
  | nil => simp
  | cons e rest ih =>
    obtain ⟨k, a⟩ := e
    simp only [List.foldl_cons]
    rw [ih, mem_mapKeys_extractAttribute]
    constructor
    · rintro ((h | ⟨hk, h1, h2⟩) | ⟨attr, hin, h1, h2⟩)
      · exact Or.inl h
      · exact Or.inr ⟨a, by rw [hk]; exact List.mem_cons_self _ _, h1, h2⟩
      · exact Or.inr ⟨attr, List.mem_cons_of_mem _ hin, h1, h2⟩
    · rintro (h | ⟨attr, hin, h1, h2⟩)
      · exact Or.inl (Or.inl h)
      · rcases List.mem_cons.1 hin with heq | hin
        · obtain ⟨hk, ha⟩ := Prod.mk.inj heq
          subst ha
          exact Or.inl (Or.inr ⟨hk, h1, h2⟩)
        · exact Or.inr ⟨attr, hin, h1, h2⟩

theorem mapKeys_extractAttribute_nodup (acc : GoMap String) (e : String × Attribute)
    (h : (mapKeys acc).Nodup) : (mapKeys (extractAttribute acc e)).Nodup := by
  unfold extractAttribute
  simp only
  split
  · split
    · exact mapKeys_mapSet_nodup _ _ _ h
    · exact h
  · exact h

theorem mapKeys_foldl_extractAttribute_nodup (l : Attributes) (acc : GoMap String)
    (h : (mapKeys acc).Nodup) : (mapKeys (l.foldl extractAttribute acc)).Nodup := by
  induction l generalizing acc with
  | nil => exact h
  | cons e rest ih => exact ih _ (mapKeys_extractAttribute_nodup acc e h)

theorem mapKeys_extractAttributes_nodup (body : Body) :
    (mapKeys (extractAttributes body)).Nodup := by
  unfold extractAttributes
  simp only
  split
  · simp [mapKeys]
  · exact mapKeys_foldl_extractAttribute_nodup _ _ (by simp [mapKeys])

theorem foldl_addRequiredProvider_of_present (f : String) (names : List String)
    (b : TerraformBreakdown) (h : ∀ n ∈ names, (n, f) ∈ providerKeys b.Providers) :
    names.foldl (addRequiredProvider f) b = b := by
  induction names with
  | nil => rfl
  | cons n rest ih =>
    have hany : b.Providers.any (fun p => p.Name == n && p.File == f) = true :=
      (any_key_iff _ _ _).2 (h n (List.mem_cons_self _ _))
    have hstep : addRequiredProvider f b n = b := by
      rw [addRequiredProvider_frame, addRequiredProvider_providers]
      simp [hany]
    simp only [List.foldl_cons]
    rw [hstep]
    exact ih (fun m hm => h m (List.mem_cons_of_mem _ hm))

theorem foldl_extractRequiredBlock_of_present (f : String) (blocks : List Block)
    (b : TerraformBreakdown)
    (h : ∀ blk ∈ blocks, blk.Type_ = "required_providers" →
      ∀ n ∈ mapKeys (extractAttributes blk.Body), (n, f) ∈ providerKeys b.Providers) :
    blocks.foldl (extractRequiredBlock f) b = b := by
  induction blocks with
  | nil => rfl
  | cons blk rest ih =>
    have hstep : extractRequiredBlock f b blk = b := by
      unfold extractRequiredBlock
      split
      · rename_i hty
        exact foldl_addRequiredProvider_of_present f _ b
          (h blk (List.mem_cons_self _ _) hty)
      · rfl
    simp only [List.foldl_cons]
    rw [hstep]
    exact ih (fun x hx => h x (List.mem_cons_of_mem _ hx))

theorem foldl_extractRequiredBlock_covers (f : String) (blocks : List Block)
    (b : TerraformBreakdown) :
    ∀ blk ∈ blocks, blk.Type_ = "required_providers" →
      ∀ n ∈ mapKeys (extractAttributes blk.Body),
        (n, f) ∈ providerKeys (blocks.foldl (extractRequiredBlock f) b).Providers := by
  have hinit : MergedOnly f b.Providers [] := ⟨by simp, by simp⟩
  obtain ⟨ext, heq, _, _, hc⟩ := foldl_extractRequiredBlock_step f b blocks [] hinit
  simp only [List.append_nil, List.nil_append] at heq hc
  intro blk hblk hty n hn
  rw [heq]
  exact hc blk hblk hty n hn

theorem mem_mapKeys_extractAttributes_of_perm (body1 body2 : Body)
    (hdiag : HasErrors body2.JustAttributes.2 = HasErrors body1.JustAttributes.2)
    (hperm : body2.JustAttributes.1.Perm body1.JustAttributes.1) (n : String)
    (h : n ∈ mapKeys (extractAttributes body2)) : n ∈ mapKeys (extractAttributes body1) := by
  unfold extractAttributes at h ⊢
  simp only [hdiag] at h
  simp only
  split
  · rename_i herr
    simp [herr] at h
    exact absurd h (by simp [mapKeys])
  · rename_i herr
    simp only [herr, Bool.false_eq_true, if_false] at h
    rw [mem_mapKeys_foldl_extractAttribute] at h ⊢
    rcases h with h | ⟨attr, hin, h1, h2⟩
    · exact Or.inl h
    · exact Or.inr ⟨attr, hperm.mem_iff.1 hin, h1, h2⟩

theorem names_of_reenumeration (blocks1 blocks2 : List Block)
    (h : List.Forall₂
      (fun block1 block2 =>
        block2.Type_ = block1.Type_ ∧
          HasErrors block2.Body.JustAttributes.2 = HasErrors block1.Body.JustAttributes.2 ∧
          block2.Body.JustAttributes.1.Perm block1.Body.JustAttributes.1)
      blocks1 blocks2) :
    ∀ blk2 ∈ blocks2, blk2.Type_ = "required_providers" →
      ∀ n ∈ mapKeys (extractAttributes blk2.Body),
        ∃ blk1 ∈ blocks1, blk1.Type_ = "required_providers" ∧
          n ∈ mapKeys (extractAttributes blk1.Body) := by
  induction h with
  | nil => simp
  | @cons b1 b2 rest1 rest2 hrel _ ih =>
    intro blk2 hblk2 hty n hn
    rcases List.mem_cons.1 hblk2 with heq | hin
    · subst heq
      exact ⟨b1, List.mem_cons_self _ _, by rw [← hrel.1]; exact hty,
        mem_mapKeys_extractAttributes_of_perm b1.Body blk2.Body hrel.2.1 hrel.2.2 n hn⟩
    · obtain ⟨blk1, hb1, hty1, hn1⟩ := ih blk2 hin hty n hn
      exact ⟨blk1, List.mem_cons_of_mem _ hb1, hty1, hn1⟩

/-- C20: running `extractRequiredProviders` a second time with the same body and file
path appends nothing: the result is the breakdown of the first run; this also holds when
the second run enumerates the attributes of the nested blocks in another order. -/
theorem requiredProviders_idempotent (body1 body2 : Body) (f : String)
    (b : TerraformBreakdown) (h : Reenumeration body1 body2) :
    extractRequiredProviders body1 f (extractRequiredProviders body1 f b) =
        extractRequiredProviders body1 f b ∧
      extractRequiredProviders body2 f (extractRequiredProviders body1 f b) =
        extractRequiredProviders body1 f b := by
  obtain ⟨hdiag, hblocks⟩ := h
  cases herr : HasErrors (body1.PartialContent requiredProvidersSchema).2
  · have hrun : extractRequiredProviders body1 f b =
        (body1.PartialContent requiredProvidersSchema).1.foldl (extractRequiredBlock f) b := by
      unfold extractRequiredProviders
      simp only [herr, Bool.false_eq_true, if_false]
    have hcov := foldl_extractRequiredBlock_covers f
      (body1.PartialContent requiredProvidersSchema).1 b
    rw [← hrun] at hcov
    constructor
    · unfold extractRequiredProviders
      simp only [herr, Bool.false_eq_true, if_false]
      rw [← hrun]
      exact foldl_extractRequiredBlock_of_present f _ _ hcov
    · rw [herr] at hdiag
      have : ∀ b0, extractRequiredProviders body2 f b0 =
          (body2.PartialContent requiredProvidersSchema).1.foldl (extractRequiredBlock f) b0 := by
        intro b0
        unfold extractRequiredProviders
        simp only [hdiag, Bool.false_eq_true, if_false]
      rw [this]
      apply foldl_extractRequiredBlock_of_present
      intro blk2 hblk2 hty n hn
      obtain ⟨blk1, hb1, hty1, hn1⟩ := names_of_reenumeration _ _ hblocks blk2 hblk2 hty n hn
      exact hcov blk1 hb1 hty1 n hn1
  · rw [herr] at hdiag
    have h1 : ∀ b0, extractRequiredProviders body1 f b0 = b0 := by
      intro b0
      unfold extractRequiredProviders
      simp only [herr, if_true]
    have h2 : ∀ b0, extractRequiredProviders body2 f b0 = b0 := by
      intro b0
      unfold extractRequiredProviders
      simp only [hdiag, if_true]
    rw [h1, h1, h2]
    exact ⟨rfl, rfl⟩

/-- C20 (witness): `required_providers { aws = {...}, google = {...} }`, enumerated as
`aws`, `google` in the first run and as `google`, `aws` in the second. -/
theorem requiredProviders_idempotent_witness :
    (extractRequiredProviders awsGoogleBody "main.tf"
          (extractRequiredProviders awsGoogleBody "main.tf" emptyBreakdown) =
        extractRequiredProviders awsGoogleBody "main.tf" emptyBreakdown ∧
      extractRequiredProviders googleAwsBody "main.tf"
          (extractRequiredProviders awsGoogleBody "main.tf" emptyBreakdown) =
        extractRequiredProviders awsGoogleBody "main.tf" emptyBreakdown) ∧
      (extractRequiredProviders awsGoogleBody "main.tf" emptyBreakdown).Providers =
        [{ Name := "aws", File := "main.tf" }, { Name := "google", File := "main.tf" }] :=
  ⟨requiredProviders_idempotent awsGoogleBody googleAwsBody "main.tf" emptyBreakdown
      ⟨rfl, List.Forall₂.cons ⟨rfl, rfl, List.Perm.swap _ _ _⟩ List.Forall₂.nil⟩,
    by decide⟩

/-! ## C14: the result of an empty scan -/

theorem walkFn_of_not_recognised (parser : Parser) (v : BreakdownValue) (entry : WalkEntry)
    (herr : entry.err = none) (h : recognised entry = false) :
    walkFn parser v entry = Except.ok v := by
  unfold walkFn
  rw [herr]
  simp only
  unfold recognised at h
  by_cases hdir : entry.isDir = true
  · simp [hdir]
  · simp only [Bool.not_eq_true] at hdir
    simp only [hdir, Bool.not_false, Bool.true_and, Bool.or_eq_false_iff, beq_eq_false_iff_ne,
      ne_eq] at h
    obtain ⟨⟨h1, h2⟩, h3⟩ := h
    simp [hdir, h1, h2, h3]

theorem Walk_of_not_recognised (parser : Parser) (entries : List WalkEntry)
    (v : BreakdownValue)
    (h : ∀ e ∈ entries, e.err = none ∧ recognised e = false) :
    Walk parser entries v = Except.ok v := by
  induction entries with
  | nil => rfl
  | cons e rest ih =>
    have he := h e (List.mem_cons_self _ _)
    simp only [Walk, walkFn_of_not_recognised parser v e he.1 he.2]
    exact ih (fun x hx => h x (List.mem_cons_of_mem _ hx))

/-- C14: for a directory in which the walk meets no error and no recognised file,
`parseTerraformDirectory` returns the breakdown it started from, whose four slices are
empty and not nil and whose map is empty and not nil, and `json.Marshal` of it is
`{"resources":[],"modules":[],"providers":[],"variables":[],"tfvars":{}}`. -/
theorem empty_scan (parser : Parser) (entries : List WalkEntry) (enc : Encoders)
    (h : ∀ e ∈ entries, e.err = none ∧ recognised e = false) :
    parseTerraformDirectory parser entries = Except.ok newBreakdown ∧
      newBreakdown.Resources = GoSlice.elems [] ∧
      newBreakdown.Modules = GoSlice.elems [] ∧
      newBreakdown.Providers = GoSlice.elems [] ∧
      newBreakdown.Variables = GoSlice.elems [] ∧
      newBreakdown.TfVars = GoMapValue.entries [] ∧
      Marshal enc newBreakdown =
        "\x7b\"resources\":[],\"modules\":[],\"providers\":[],\"variables\":[],\"tfvars\":\x7b\x7d\x7d" ∧
      Marshal enc zeroBreakdown =
        "\x7b\"resources\":null,\"modules\":null,\"providers\":null,\"variables\":null,\"tfvars\":null\x7d" := by
  refine ⟨Walk_of_not_recognised parser entries newBreakdown h, rfl, rfl, rfl, rfl, rfl, ?_, ?_⟩
  · simp only [Marshal, newBreakdown, marshalSlice, marshalMap, List.mergeSort_nil,
      List.map_nil, Join]
    rfl
  · rfl

/-- C14 (witness): a directory with a sub-directory, a `README.md` and a `main.tf.bak`. -/
theorem empty_scan_witness :
    parseTerraformDirectory eastWestParser unrecognisedWalk = Except.ok newBreakdown :=
  (empty_scan eastWestParser unrecognisedWalk
    { encKey := fun s => s, encResource := fun _ => "", encModule := fun _ => "",
      encProvider := fun _ => "", encVariable := fun _ => "", encTfVars := fun _ => "" }
    (by decide)).1

end TerraformParser
